import Mathlib

/-!
# Verification of the script-descriptor module (`src/descriptor.rs`)

A shallow embedding of the descriptor language of this repository: the
`Descriptor` algebra, the raw `FunctionTree` parser (`FunctionTree::from_slice`),
the interpretation `Descriptor::from_tree`, the entry point
`<Descriptor as FromStr>::from_str`, the serializer
(`<Descriptor as fmt::Display>::fmt`) and `Descriptor::instantiate`.

Strings are modelled as lists of byte values (`List Nat`).  The printable-ASCII
check of `from_str` guarantees that every byte reaching the grammar parser lies
in `20..=127`, so bytes and characters coincide on all inputs the parser ever
sees and byte lists model Rust string slices exactly there.

Rust panics (out-of-bounds indexing, `unwrap` on `Err`) are modelled explicitly
by a dedicated result constructor `DResult.crash`: list indexing `l[i]` is
translated as `l[i]?` with the `none` case mapped to `crash`.
-/

/-- ASCII byte view of a string literal. -/
def strBytes (s : String) : List Nat := s.data.map Char.toNat

/-- The error variants of `Error` that `descriptor.rs` constructs:
`Error::Unprintable(u8)`, `Error::ExpectedChar(char)`, `Error::Unexpected(String)`. -/
inductive Error where
  | unprintable (b : Nat)
  | expectedChar (c : Nat)
  | unexpected (tok : List Nat)
deriving DecidableEq

/-- `fn errorize(s: &str) -> Error { Error::Unexpected(s.to_owned()) }` -/
def errorize (s : List Nat) : Error := .unexpected s

/-- `bitcoin::util::hash::Sha256dHash`, kept opaque (hashing is an external
collaborator): a digest is remembered by how it was produced, either
`from_data` applied to some bytes or a successful `from_hex` decode. -/
inductive Sha256dHash where
  | fromData (bytes : List Nat)
  | fromHexDigest (hex : List Nat)
deriving DecidableEq

/-- `Sha256dHash::from_hex`: succeeds exactly on 64 hex digits (the textual
form of a 32-byte digest). Never successfully reached by `from_tree` (the
`hash` arm crashes first, see `hashArm`), so only its interface matters. -/
def Sha256dHash.from_hex (s : List Nat) : Option Sha256dHash :=
  if s.length = 64 ∧ s.all (fun b =>
      decide ((48 ≤ b ∧ b ≤ 57) ∨ (97 ≤ b ∧ b ≤ 102))) then
    some (.fromHexDigest s)
  else none

/-- The `Descriptor<P>` enum. `usize`/`u32` payloads are modelled as `Nat`
(the parser's `parse_num` enforces the `u32` range on the way in). -/
inductive Descriptor (P : Type) where
  | Key (pk : P)
  | KeyHash (pk : P)
  | Multi (k : Nat) (keys : List P)
  | Hash (h : Sha256dHash)
  | Time (n : Nat)
  | Threshold (k : Nat) (subs : List (Descriptor P))
  | And (l r : Descriptor P)
  | Or (l r : Descriptor P)
  | AsymmetricOr (l r : Descriptor P)
  | Wpkh (pk : P)
  | Sh (sub : Descriptor P)
  | Wsh (sub : Descriptor P)

/-- Outcome of a fallible descriptor computation: `Ok`, `Err`, or a Rust
panic (`crash`: out-of-bounds index or `unwrap` on `Err`). -/
inductive DResult (P : Type) where
  | ok (d : Descriptor P)
  | err (e : Error)
  | crash

/-- Outcome of interpreting a list of sub-trees (the `thres` loop). -/
inductive DResults (P : Type) where
  | ok (ds : List (Descriptor P))
  | err (e : Error)
  | crash

/-- The raw syntax tree `struct FunctionTree<'a> { name: &'a str, args: Vec<FunctionTree<'a>> }`. -/
inductive FunctionTree where
  | mk (name : List Nat) (args : List FunctionTree)

def FunctionTree.name : FunctionTree → List Nat
  | .mk n _ => n

def FunctionTree.args : FunctionTree → List FunctionTree
  | .mk _ a => a

/-- The scan at the start of `FunctionTree::from_slice`: position and value of
the first `(` (40), `,` (44) or `)` (41) in the slice (`Found::Nothing` is
`none`). -/
def findSpecial : List Nat → Option (Nat × Nat)
  | [] => none
  | c :: rest =>
    if c = 40 ∨ c = 44 ∨ c = 41 then some (0, c)
    else (findSpecial rest).map (fun p => (p.1 + 1, p.2))

mutual

/-- `FunctionTree::from_slice`, with a fuel parameter making the recursion
structural (`fromSliceF_isSome` below shows `2 * length + 1` fuel always
suffices, so the fuelless wrapper `FunctionTree.from_slice` is total and
exact). `none` means the fuel ran out. -/
def fromSliceF : Nat → List Nat → Option (Except Error (FunctionTree × List Nat))
  | 0, _ => none
  | fuel + 1, sl =>
    match findSpecial sl with
    | none => some (.error (.expectedChar 41))
    | some (n, c) =>
      if c = 40 then
        match parseArgsF fuel (sl.drop (n + 1)) with
        | none => none
        | some (.error e) => some (.error e)
        | some (.ok (args, rem)) => some (.ok (.mk (sl.take n) args, rem))
      else
        some (.ok (.mk (sl.take n) [], sl.drop n))
termination_by structural fuel => fuel

/-- The argument loop inside the `Found::Lparen` arm of
`FunctionTree::from_slice`: parse one argument, then dispatch on the first
unconsumed byte (`,` continues, `)` finishes, anything else is
`ExpectedChar(',')`, end of input is `ExpectedChar(')')`). -/
def parseArgsF : Nat → List Nat → Option (Except Error (List FunctionTree × List Nat))
  | 0, _ => none
  | fuel + 1, sl =>
    match fromSliceF fuel sl with
    | none => none
    | some (.error e) => some (.error e)
    | some (.ok (arg, newSl)) =>
      match newSl with
      | [] => some (.error (.expectedChar 41))
      | c :: tail =>
        if c = 44 then
          match parseArgsF fuel tail with
          | none => none
          | some (.error e) => some (.error e)
          | some (.ok (args, rem)) => some (.ok (arg :: args, rem))
        else if c = 41 then some (.ok ([arg], tail))
        else some (.error (.expectedChar 44))
termination_by structural fuel => fuel

end

/-- `FunctionTree::from_slice` proper. The fuel `2 * sl.length + 1` is always
sufficient (`fromSliceF_isSome`), so the `none` fallback is unreachable. -/
def FunctionTree.from_slice (sl : List Nat) : Except Error (FunctionTree × List Nat) :=
  match fromSliceF (2 * sl.length + 1) sl with
  | some r => r
  | none => .error (.expectedChar 41)

/-- `u32::from_str`: optional leading `+`, then one or more decimal digits,
rejecting the empty string and values above `u32::MAX`. -/
def u32FromStr (s : List Nat) : Option Nat :=
  let ds := match s with
    | 43 :: rest => rest
    | _ => s
  if ds ≠ [] ∧ ds.all (fun b => decide (48 ≤ b ∧ b ≤ 57)) then
    let v := ds.foldl (fun acc b => acc * 10 + (b - 48)) 0
    if v ≤ 4294967295 then some v else none
  else none

/-- `fn parse_num(s: &str) -> Result<u32, Error>`. -/
def parse_num (s : List Nat) : Except Error Nat :=
  match u32FromStr s with
  | some n => .ok n
  | none => .error (errorize s)

/-- The shared shape of the `pk`, `pkh` and `wpkh` arms of
`Descriptor::from_tree`: a single argument that must itself be a bare atom,
whose name is handed to `P::from_str` (here the parameter `fp`, whose error
payload is the `ToString`-rendered message wrapped in `Error::Unexpected`). -/
def keyLeaf {P : Type} (fp : List Nat → Except (List Nat) P)
    (args : List FunctionTree) (ctor : P → Descriptor P) : DResult P :=
  match args[0]? with
  | none => .crash
  | some pk =>
    if pk.args.isEmpty then
      match fp pk.name with
      | .ok p => .ok (ctor p)
      | .error e => .err (.unexpected e)
    else
      match pk.args[0]? with
      | none => .crash
      | some sub => .err (errorize sub.name)

/-- The loop `for arg in &top.args[1..] { keys.push(P::from_str(arg.name)?) }`
of the `multi` arm. -/
def keyList {P : Type} (fp : List Nat → Except (List Nat) P) :
    List FunctionTree → Except (List Nat) (List P)
  | [] => .ok []
  | arg :: rest =>
    match fp arg.name with
    | .error e => .error e
    | .ok p => (keyList fp rest).map (p :: ·)

/-- The `("multi", nkeys)` arm of `Descriptor::from_tree`. Note that `nkeys`
is `top.args.len()`, which counts the threshold token itself along with the
keys, and that a threshold token that fails `parse_num` is special-cased into
`Multi(2, [P::from_str("").unwrap(); 3])`. -/
def multiArm {P : Type} (fp : List Nat → Except (List Nat) P)
    (args : List FunctionTree) : DResult P :=
  match args.find? (fun arg => !arg.args.isEmpty) with
  | some bad =>
    match bad.args[0]? with
    | none => .crash
    | some sub => .err (errorize sub.name)
  | none =>
    match args[0]? with
    | none => .crash
    | some a0 =>
      match parse_num a0.name with
      | .error _ =>
        match fp [] with
        | .ok d => .ok (.Multi 2 [d, d, d])
        | .error _ => .crash
      | .ok thresh =>
        if thresh ≥ args.length then
          .err (errorize (strBytes "higher threshold than there were keys in multi"))
        else
          match keyList fp (args.drop 1) with
          | .error e => .err (.unexpected e)
          | .ok keys => .ok (.Multi thresh keys)

/-- The `("hash", 1)` arm of `Descriptor::from_tree`. After the empty-leaf
special case, the code tests `hash_t.args.is_empty()` and then reads
`hash_t.args[0]` — an index into that same empty list, hence `crash` on the
branch the hex decode was meant to serve. -/
def hashArm {P : Type} (args : List FunctionTree) : DResult P :=
  match args[0]? with
  | none => .crash
  | some a0 =>
    if a0.args.isEmpty && a0.name.isEmpty then
      .ok (.Hash (.fromData (List.replicate 32 0)))
    else if a0.args.isEmpty then
      match a0.args[0]? with
      | none => .crash
      | some sub =>
        match Sha256dHash.from_hex sub.name with
        | some h => .ok (.Hash h)
        | none => .err (errorize sub.name)
    else
      match a0.args[0]? with
      | none => .crash
      | some sub => .err (errorize sub.name)

/-- The `("time", 1)` arm of `Descriptor::from_tree`, with the same
out-of-bounds read of `time_t.args[0]` as the `hash` arm. -/
def timeArm {P : Type} (args : List FunctionTree) : DResult P :=
  match args[0]? with
  | none => .crash
  | some a0 =>
    if a0.args.isEmpty && a0.name.isEmpty then
      .ok (.Time 0x10000000)
    else if a0.args.isEmpty then
      match a0.args[0]? with
      | none => .crash
      | some sub =>
        match parse_num sub.name with
        | .ok n => .ok (.Time n)
        | .error e => .err e
    else
      match a0.args[0]? with
      | none => .crash
      | some sub => .err (errorize sub.name)

/-- Propagation of the two `Descriptor::from_tree(...)?` calls of a binary
arm (`and`, `or`, `aor`): the first `Err`/panic wins, otherwise the
constructor is applied to the two sub-descriptors. -/
def binArm {P : Type} (ctor : Descriptor P → Descriptor P → Descriptor P) :
    DResult P → DResult P → DResult P
  | .err e, _ => .err e
  | .crash, _ => .crash
  | .ok _, .err e => .err e
  | .ok _, .crash => .crash
  | .ok l, .ok r => .ok (ctor l r)

/-- Propagation of the single `Descriptor::from_tree(...)?` call of a unary
arm (`sh`, `wsh`). -/
def unArm {P : Type} (ctor : Descriptor P → Descriptor P) : DResult P → DResult P
  | .ok s => .ok (ctor s)
  | .err e => .err e
  | .crash => .crash

/-- The loop `for arg in &top.args[1..] { subs.push(Descriptor::from_tree(arg)?) }`
of the `thres` arm, over the already-interpreted sub-results: the first
`Err`/panic aborts, otherwise the sub-descriptors are collected in order. -/
def combineResults {P : Type} : List (DResult P) → DResults P
  | [] => .ok []
  | r :: rs =>
    match r with
    | .err e => .err e
    | .crash => .crash
    | .ok d =>
      match combineResults rs with
      | .err e => .err e
      | .crash => .crash
      | .ok ds => .ok (d :: ds)

/-- One dispatch step of `Descriptor::from_tree` on `(top.name, top.args.len())`,
with the arms in the order of the Rust `match`. Because the embedding is
pure, the recursive `from_tree` calls of the `thres`/`and`/`or`/`aor`/`sh`/`wsh`
arms are passed in as the precomputed list `results` (one entry per argument,
see `childResults`); the match structure below consumes them exactly where
the Rust code would make the call, so the shortcircuiting `?`-semantics is
preserved verbatim. Arms whose arity guard pins the argument count carry a
`.crash` default for `results` shapes the guard excludes (unreachable, since
`childResults` yields one result per argument). -/
def fromTreeStep {P : Type} (fp : List Nat → Except (List Nat) P)
    (name : List Nat) (args : List FunctionTree)
    (results : List (DResult P)) : DResult P :=
  if name = strBytes "pk" ∧ args.length = 1 then
    keyLeaf fp args .Key
  else if name = strBytes "pkh" ∧ args.length = 1 then
    keyLeaf fp args .KeyHash
  else if name = strBytes "multi" then
    multiArm fp args
  else if name = strBytes "hash" ∧ args.length = 1 then
    hashArm args
  else if name = strBytes "time" ∧ args.length = 1 then
    timeArm args
  else if name = strBytes "thres" then
    match args with
    | [] => .crash
    | a0 :: rest =>
      if !a0.args.isEmpty then
        match a0.args[0]? with
        | none => .crash
        | some sub => .err (errorize sub.name)
      else
        match parse_num a0.name with
        | .error e => .err e
        | .ok thresh =>
          if thresh ≥ rest.length + 1 then .err (errorize a0.name)
          else
            match combineResults (results.drop 1) with
            | .ok subs => .ok (.Threshold thresh subs)
            | .err e => .err e
            | .crash => .crash
  else if name = strBytes "and" ∧ args.length = 2 then
    match results with
    | [r0, r1] => binArm .And r0 r1
    | _ => .crash
  else if name = strBytes "or" ∧ args.length = 2 then
    match results with
    | [r0, r1] => binArm .Or r0 r1
    | _ => .crash
  else if name = strBytes "aor" ∧ args.length = 2 then
    match results with
    | [r0, r1] => binArm .AsymmetricOr r0 r1
    | _ => .crash
  else if name = strBytes "wpkh" ∧ args.length = 1 then
    keyLeaf fp args .Wpkh
  else if name = strBytes "sh" ∧ args.length = 1 then
    match results with
    | [r0] => unArm .Sh r0
    | _ => .crash
  else if name = strBytes "wsh" ∧ args.length = 1 then
    match results with
    | [r0] => unArm .Wsh r0
    | _ => .crash
  else
    .err (errorize name)

mutual

/-- `Descriptor::from_tree`: interpret every argument recursively (the
results being consumed lazily and in order by `fromTreeStep`, which preserves
the Rust evaluation behaviour because the embedding is pure) and dispatch. -/
def fromTree {P : Type} (fp : List Nat → Except (List Nat) P) :
    FunctionTree → DResult P
  | .mk name args => fromTreeStep fp name args (childResults fp args)

/-- The interpretations of a list of sub-trees, in order. -/
def childResults {P : Type} (fp : List Nat → Except (List Nat) P) :
    List FunctionTree → List (DResult P)
  | [] => []
  | t :: ts => fromTree fp t :: childResults fp ts

end

/-- The byte scan at the start of `<Descriptor as FromStr>::from_str`:
the first byte outside the printable range `20..=127`, if any. -/
def firstUnprintable : List Nat → Option Nat
  | [] => none
  | b :: rest => if b < 20 ∨ b > 127 then some b else firstUnprintable rest

/-- `<Descriptor<P> as FromStr>::from_str`, over the key parser `fp`. -/
def Descriptor.from_str {P : Type} (fp : List Nat → Except (List Nat) P)
    (s : List Nat) : DResult P :=
  match firstUnprintable s with
  | some b => .err (.unprintable b)
  | none =>
    match FunctionTree.from_slice s with
    | .error e => .err e
    | .ok (top, rem) =>
      if rem ≠ [] then .err (errorize rem)
      else fromTree fp top

/-- A key type whose parser accepts any token verbatim and renders it back
unchanged: the token itself is the key. `Descriptor::from_str` and the
serializer are generic over the key type `P: FromStr + Display`, and this
instance exercises them with the identity encoding. -/
def idKey : List Nat → Except (List Nat) (List Nat) := fun s => .ok s

/-- Decimal rendering of a number, as `{}` formatting of `usize`/`u32`. -/
def natBytes (n : Nat) : List Nat := (Nat.repr n).data.map Char.toNat

/-- `Display` of a `Sha256dHash` (the hex of the digest). For a digest
produced by the (unreachable) successful `from_hex` this is the stored hex;
for `from_data` the true digest is computed by the external hashing
collaborator and no theorem below depends on its value, so it is left as the
empty rendering. -/
def Sha256dHash.displayBytes : Sha256dHash → List Nat
  | .fromHexDigest hex => hex
  | .fromData _ => []

mutual

/-- `<Descriptor<P> as fmt::Display>::fmt` over the key renderer `fmtP`. Each
Rust arm writes an open parenthesis and its contents and falls through to the
shared trailing `f.write_str(")")`, inlined here as the final `++ [41]` of
every arm. `Multi` writes `multi({k}` and then every key followed by `,`;
`Threshold` writes `multi({k}` (not `thres`) and then every rendered child
followed by `,`; the binary forms write `name({l}, {r}` with a comma and a
space between the children. -/
def fmtD {P : Type} (fmtP : P → List Nat) : Descriptor P → List Nat
  | .Key p => strBytes "pk(" ++ fmtP p ++ [41]
  | .KeyHash p => strBytes "pkh(" ++ fmtP p ++ [41]
  | .Multi k keys =>
      strBytes "multi(" ++ natBytes k ++ (keys.map (fun p => fmtP p ++ [44])).flatten ++ [41]
  | .Hash h => strBytes "hash(" ++ h.displayBytes ++ [41]
  | .Time n => strBytes "time(" ++ natBytes n ++ [41]
  | .Threshold k descs =>
      strBytes "multi(" ++ natBytes k ++ fmtDList fmtP descs ++ [41]
  | .And l r => strBytes "and(" ++ fmtD fmtP l ++ strBytes ", " ++ fmtD fmtP r ++ [41]
  | .Or l r => strBytes "or(" ++ fmtD fmtP l ++ strBytes ", " ++ fmtD fmtP r ++ [41]
  | .AsymmetricOr l r =>
      strBytes "aor(" ++ fmtD fmtP l ++ strBytes ", " ++ fmtD fmtP r ++ [41]
  | .Wpkh p => strBytes "wpkh(" ++ fmtP p ++ [41]
  | .Sh d => strBytes "sh(" ++ fmtD fmtP d ++ [41]
  | .Wsh d => strBytes "wsh(" ++ fmtD fmtP d ++ [41]

/-- The `Threshold` child loop `write!(f, "{},", desc)`. -/
def fmtDList {P : Type} (fmtP : P → List Nat) : List (Descriptor P) → List Nat
  | [] => []
  | d :: ds => fmtD fmtP d ++ [44] ++ fmtDList fmtP ds

end

/-- The `Multi` key loop `for key in keys { key.fmt(f)?; f.write_str(",")?; }`
of `Descriptor::instantiate`'s companion `Display` impl, as a standalone list
map used to state the serializer claims. -/
def joinAfterEach (l : List (List Nat)) : List Nat :=
  (l.map (fun x => x ++ [44])).flatten

/-- The key loop of the `Multi` arm of `Descriptor::instantiate`:
`for key in keys { new_keys.push(instantiate_fn(key)?) }`. -/
def instKeys {P Q E : Type} (f : P → Except E Q) : List P → Except E (List Q)
  | [] => .ok []
  | p :: rest =>
    match f p with
    | .error e => .error e
    | .ok q => (instKeys f rest).map (q :: ·)

mutual

/-- `Descriptor::instantiate`: replace every key leaf through the fallible
`instantiate_fn`, reconstructing the tree around the results. The target key
type (`secp256k1::PublicKey` in the Rust signature) is kept as an opaque type
parameter `Q`. Arms appear in the order of the Rust `match`. -/
def instantiate {P Q E : Type} (f : P → Except E Q) :
    Descriptor P → Except E (Descriptor Q)
  | .Key pk => (f pk).map .Key
  | .KeyHash pk => (f pk).map .KeyHash
  | .Multi k keys =>
    match instKeys f keys with
    | .error e => .error e
    | .ok newKeys => .ok (.Multi k newKeys)
  | .Threshold k subs =>
    match instantiateList f subs with
    | .error e => .error e
    | .ok newSubs => .ok (.Threshold k newSubs)
  | .Hash h => .ok (.Hash h)
  | .And l r =>
    match instantiate f l with
    | .error e => .error e
    | .ok l' =>
      match instantiate f r with
      | .error e => .error e
      | .ok r' => .ok (.And l' r')
  | .Or l r =>
    match instantiate f l with
    | .error e => .error e
    | .ok l' =>
      match instantiate f r with
      | .error e => .error e
      | .ok r' => .ok (.Or l' r')
  | .AsymmetricOr l r =>
    match instantiate f l with
    | .error e => .error e
    | .ok l' =>
      match instantiate f r with
      | .error e => .error e
      | .ok r' => .ok (.AsymmetricOr l' r')
  | .Time n => .ok (.Time n)
  | .Wpkh pk => (f pk).map .Wpkh
  | .Sh sub => (instantiate f sub).map .Sh
  | .Wsh sub => (instantiate f sub).map .Wsh

/-- The sub-descriptor loop of the `Threshold` arm of `Descriptor::instantiate`. -/
def instantiateList {P Q E : Type} (f : P → Except E Q) :
    List (Descriptor P) → Except E (List (Descriptor Q))
  | [] => .ok []
  | d :: ds =>
    match instantiate f d with
    | .error e => .error e
    | .ok d' => (instantiateList f ds).map (d' :: ·)

end

mutual

/-- Specification-side view for the instantiation claims: the keys held by a
descriptor, in left-to-right depth-first traversal order. -/
def keysOf {P : Type} : Descriptor P → List P
  | .Key p => [p]
  | .KeyHash p => [p]
  | .Multi _ keys => keys
  | .Hash _ => []
  | .Time _ => []
  | .Threshold _ subs => keysOfList subs
  | .And l r => keysOf l ++ keysOf r
  | .Or l r => keysOf l ++ keysOf r
  | .AsymmetricOr l r => keysOf l ++ keysOf r
  | .Wpkh p => [p]
  | .Sh d => keysOf d
  | .Wsh d => keysOf d

def keysOfList {P : Type} : List (Descriptor P) → List P
  | [] => []
  | d :: ds => keysOf d ++ keysOfList ds

end

mutual

/-- Specification-side view for the instantiation claims: the pure
structure-preserving key map ("a tree of identical shape: each key leaf
replaced by the mapping function's output, every non-key datum reproduced
unchanged"). -/
def mapKeys {P Q : Type} (g : P → Q) : Descriptor P → Descriptor Q
  | .Key p => .Key (g p)
  | .KeyHash p => .KeyHash (g p)
  | .Multi k keys => .Multi k (keys.map g)
  | .Hash h => .Hash h
  | .Time n => .Time n
  | .Threshold k subs => .Threshold k (mapKeysList g subs)
  | .And l r => .And (mapKeys g l) (mapKeys g r)
  | .Or l r => .Or (mapKeys g l) (mapKeys g r)
  | .AsymmetricOr l r => .AsymmetricOr (mapKeys g l) (mapKeys g r)
  | .Wpkh p => .Wpkh (g p)
  | .Sh d => .Sh (mapKeys g d)
  | .Wsh d => .Wsh (mapKeys g d)

def mapKeysList {P Q : Type} (g : P → Q) : List (Descriptor P) → List (Descriptor Q)
  | [] => []
  | d :: ds => mapKeys g d :: mapKeysList g ds

end

/-- Modelled from the spec: the script instruction alphabet that
`ParseTree::compile` (whose source is not part of this repository snapshot;
only its test `tests::compile` is) emits for the `Key`/`Multi`/`Time`/`And`
fragment — literal pushes plus the signature, multi-signature and time-lock
check opcodes with their verify variants. -/
inductive Op (P : Type) where
  | pushNum (n : Nat)
  | pushKey (k : P)
  | pushInt (n : Nat)
  | checksig
  | checksigverify
  | checkmultisig
  | checkmultisigverify
  | csv
deriving DecidableEq

/-- Modelled from the spec: replacing a sub-program's final check with its
verify variant ("the combinator can use that verify-form in place of a
separate pass/fail-then-drop-continue sequence"). -/
def verifyLast {P : Type} : List (Op P) → List (Op P)
  | [] => []
  | [op] =>
    match op with
    | .checksig => [.checksigverify]
    | .checkmultisig => [.checkmultisigverify]
    | other => [other]
  | op :: rest => op :: verifyLast rest

/-- Modelled from the spec: whether a sub-program ends in the time-lock check
(`OP_CSV`), which already behaves as a verify form ("it can avoid the DROP if
it ends with the CSV"). -/
def endsInCsv {P : Type} (prog : List (Op P)) : Bool :=
  match prog.getLast? with
  | some .csv => true
  | _ => false

/-- Modelled from the spec: the fragment of `ParseTree::compile` (not part of
this repository snapshot) that the compilation claim exercises.
`Key` → push the key then a signature check; `Multi(k, keys)` → push `k`, the
keys in order, `n`, then the multi-signature check; `Time(n)` → push `n` then
the time-lock check; `And(l, r)` → cost-based reordering: the sub-program
ending in the time-lock check (already in verify form) is placed last, the
other sub-program is emitted first with its final check turned into its
verify variant. Variants outside the fragment exercised by the claim are not
modelled and compile to the empty program. -/
def compile {P : Type} : Descriptor P → List (Op P)
  | .Key k => [.pushKey k, .checksig]
  | .Multi k keys =>
      .pushNum k :: (keys.map .pushKey ++ [.pushNum keys.length, .checkmultisig])
  | .Time n => [.pushInt n, .csv]
  | .And l r =>
      let pl := compile l
      let pr := compile r
      if endsInCsv pl then verifyLast pr ++ pl else verifyLast pl ++ pr
  | _ => []

/-- A key rendering that survives the grammar: printable ASCII with none of
the three structural bytes `(`, `,`, `)`. -/
def GoodKey (p : List Nat) : Prop :=
  ∀ b ∈ p, 20 ≤ b ∧ b ≤ 127 ∧ b ≠ 40 ∧ b ≠ 44 ∧ b ≠ 41

instance : DecidablePred GoodKey := fun p =>
  inferInstanceAs (Decidable (∀ b ∈ p, _ ∧ _ ∧ _ ∧ _ ∧ _))

/-- The descriptor fragment on which serialize-then-parse is the identity:
`Key`, `KeyHash`, `Wpkh`, `Sh`, `Wsh` over grammar-surviving keys. -/
inductive SimpleTree : Descriptor (List Nat) → Prop where
  | key {p} : GoodKey p → SimpleTree (.Key p)
  | keyHash {p} : GoodKey p → SimpleTree (.KeyHash p)
  | wpkh {p} : GoodKey p → SimpleTree (.Wpkh p)
  | sh {d} : SimpleTree d → SimpleTree (.Sh d)
  | wsh {d} : SimpleTree d → SimpleTree (.Wsh d)

/-- Joining rendered children with the separator placed between them (the
spec's reading of a delimited list), used to state the serializer claim. -/
def sepBetween (sep : List Nat) : List (List Nat) → List Nat
  | [] => []
  | [x] => x
  | x :: xs => x ++ sep ++ sepBetween sep xs

/-- Specification-side view for the error-propagation claim: the error of the
first key, in traversal order, on which the mapping function fails. -/
def scanKeys {P Q E : Type} (f : P → Except E Q) : List P → Option E
  | [] => none
  | p :: rest =>
    match f p with
    | .error e => some e
    | .ok _ => scanKeys f rest

/-! ## Helper lemmas -/

theorem keyList_length {P : Type} (fp : List Nat → Except (List Nat) P)
    (l : List FunctionTree) (ks : List P) (h : keyList fp l = .ok ks) :
    ks.length = l.length := by
  induction l generalizing ks with
  | nil => simp [keyList] at h; simp [← h]
  | cons arg rest ih =>
    simp only [keyList] at h
    cases hfp : fp arg.name with
    | error e => rw [hfp] at h; cases h
    | ok p =>
      rw [hfp] at h
      cases hrest : keyList fp rest with
      | error e => rw [hrest] at h; cases h
      | ok ks' =>
        rw [hrest] at h
        simp [Except.map] at h
        simp [← h, ih ks' hrest]

theorem combineResults_length {P : Type} (l : List (DResult P))
    (ds : List (Descriptor P)) (h : combineResults l = .ok ds) :
    ds.length = l.length := by
  induction l generalizing ds with
  | nil => simp [combineResults] at h; simp [← h]
  | cons r rs ih =>
    simp only [combineResults] at h
    cases r with
    | err e => cases h
    | crash => cases h
    | ok d =>
      cases hts : combineResults rs with
      | err e => rw [hts] at h; cases h
      | crash => rw [hts] at h; cases h
      | ok ds' =>
        rw [hts] at h
        cases h
        simp [ih ds' hts]

theorem childResults_length {P : Type} (fp : List Nat → Except (List Nat) P)
    (l : List FunctionTree) : (childResults fp l).length = l.length := by
  induction l with
  | nil => rfl
  | cons t ts ih => rw [childResults]; simp [ih]

theorem sepBetween_cons₂ (sep x y : List Nat) (ys : List (List Nat)) :
    sepBetween sep (x :: y :: ys) = x ++ sep ++ sepBetween sep (y :: ys) := rfl

theorem joinAfter_eq_sepBetween (l : List (List Nat)) (h : l ≠ []) :
    (l.map (fun x => x ++ [44])).flatten = sepBetween [44] l ++ [44] := by
  induction l with
  | nil => cases h rfl
  | cons x xs ih =>
    cases xs with
    | nil => simp [sepBetween]
    | cons y ys =>
      have ih' := ih (by simp)
      simp only [List.map_cons, List.flatten_cons] at ih' ⊢
      rw [ih', sepBetween_cons₂]
      simp

theorem fmtDList_eq_join {P : Type} (fmtP : P → List Nat) (ds : List (Descriptor P)) :
    fmtDList fmtP ds = (ds.map (fun d => fmtD fmtP d ++ [44])).flatten := by
  induction ds with
  | nil => rfl
  | cons d rest ih => simp [fmtDList, ih]

theorem functionTreeInduction (motive : FunctionTree → Prop)
    (h : ∀ name args, (∀ a ∈ args, motive a) → motive (.mk name args)) :
    ∀ t, motive t := by
  have key : ∀ n t, sizeOf t ≤ n → motive t := by
    intro n
    induction n with
    | zero =>
      intro t ht
      cases t with
      | mk name args => simp at ht
    | succ n ih =>
      intro t ht
      cases t with
      | mk name args =>
        apply h
        intro a ha
        apply ih
        have h1 : sizeOf a < sizeOf args := List.sizeOf_lt_of_mem ha
        have h2 : sizeOf (FunctionTree.mk name args) = 1 + sizeOf name + sizeOf args := by
          simp
        omega
  intro t
  exact key (sizeOf t) t le_rfl

theorem descriptorInduction {P : Type} (motive : Descriptor P → Prop)
    (hKey : ∀ p, motive (.Key p))
    (hKeyHash : ∀ p, motive (.KeyHash p))
    (hMulti : ∀ k keys, motive (.Multi k keys))
    (hHash : ∀ h, motive (.Hash h))
    (hTime : ∀ n, motive (.Time n))
    (hThreshold : ∀ k subs, (∀ d ∈ subs, motive d) → motive (.Threshold k subs))
    (hAnd : ∀ l r, motive l → motive r → motive (.And l r))
    (hOr : ∀ l r, motive l → motive r → motive (.Or l r))
    (hAOr : ∀ l r, motive l → motive r → motive (.AsymmetricOr l r))
    (hWpkh : ∀ p, motive (.Wpkh p))
    (hSh : ∀ d, motive d → motive (.Sh d))
    (hWsh : ∀ d, motive d → motive (.Wsh d)) :
    ∀ t, motive t := by
  have key : ∀ n t, sizeOf t ≤ n → motive t := by
    intro n
    induction n with
    | zero =>
      intro t ht
      cases t <;> simp at ht
    | succ n ih =>
      intro t ht
      cases t with
      | Key p => exact hKey p
      | KeyHash p => exact hKeyHash p
      | Multi k keys => exact hMulti k keys
      | Hash h => exact hHash h
      | Time m => exact hTime m
      | Threshold k subs =>
        apply hThreshold
        intro d hd
        apply ih
        have h1 : sizeOf d < sizeOf subs := List.sizeOf_lt_of_mem hd
        simp at ht
        omega
      | And l r =>
        simp at ht
        exact hAnd l r (ih l (by omega)) (ih r (by omega))
      | Or l r =>
        simp at ht
        exact hOr l r (ih l (by omega)) (ih r (by omega))
      | AsymmetricOr l r =>
        simp at ht
        exact hAOr l r (ih l (by omega)) (ih r (by omega))
      | Wpkh p => exact hWpkh p
      | Sh d =>
        simp at ht
        exact hSh d (ih d (by omega))
      | Wsh d =>
        simp at ht
        exact hWsh d (ih d (by omega))
  intro t
  exact key (sizeOf t) t le_rfl

theorem mem_keysOfList {P : Type} {subs : List (Descriptor P)} {d : Descriptor P}
    {p : P} (hd : d ∈ subs) (hp : p ∈ keysOf d) : p ∈ keysOfList subs := by
  induction subs with
  | nil => cases hd
  | cons s rest ih =>
    rw [keysOfList]
    rcases List.mem_cons.mp hd with rfl | hd'
    · exact List.mem_append_left _ hp
    · exact List.mem_append_right _ (ih hd')

theorem instKeys_ok {P Q E : Type} (f : P → Except E Q) (g : P → Q)
    (keys : List P) (h : ∀ p ∈ keys, f p = .ok (g p)) :
    instKeys f keys = .ok (keys.map g) := by
  induction keys with
  | nil => rfl
  | cons p rest ih =>
    rw [instKeys, h p (by simp), ih (fun q hq => h q (by simp [hq]))]
    rfl

theorem instantiateList_ok_of {P Q E : Type} (f : P → Except E Q) (g : P → Q)
    (subs : List (Descriptor P))
    (h : ∀ d ∈ subs, instantiate f d = .ok (mapKeys g d)) :
    instantiateList f subs = .ok (mapKeysList g subs) := by
  induction subs with
  | nil => rfl
  | cons d rest ih =>
    rw [instantiateList, h d (by simp), ih (fun s hs => h s (by simp [hs])),
      mapKeysList]
    rfl

theorem instKeys_ex {P Q E : Type} (f : P → Except E Q) (keys : List P)
    (h : ∀ p ∈ keys, ∃ q, f p = .ok q) : ∃ ks, instKeys f keys = .ok ks := by
  induction keys with
  | nil => exact ⟨[], rfl⟩
  | cons p rest ih =>
    obtain ⟨q, hq⟩ := h p (by simp)
    obtain ⟨ks, hks⟩ := ih (fun x hx => h x (by simp [hx]))
    exact ⟨q :: ks, by rw [instKeys, hq, hks]; rfl⟩

theorem instantiateList_ex {P Q E : Type} (f : P → Except E Q)
    (subs : List (Descriptor P))
    (h : ∀ d ∈ subs, ∃ d', instantiate f d = .ok d') :
    ∃ ds, instantiateList f subs = .ok ds := by
  induction subs with
  | nil => exact ⟨[], rfl⟩
  | cons d rest ih =>
    obtain ⟨d', hd⟩ := h d (by simp)
    obtain ⟨ds, hds⟩ := ih (fun s hs => h s (by simp [hs]))
    exact ⟨d' :: ds, by rw [instantiateList, hd, hds]; rfl⟩

theorem instantiate_ex {P Q E : Type} (f : P → Except E Q) (t : Descriptor P)
    (h : ∀ p ∈ keysOf t, ∃ q, f p = .ok q) :
    ∃ d, instantiate f t = .ok d := by
  induction t using descriptorInduction with
  | hKey p =>
    obtain ⟨q, hq⟩ := h p (by simp [keysOf])
    exact ⟨.Key q, by rw [instantiate, hq]; rfl⟩
  | hKeyHash p =>
    obtain ⟨q, hq⟩ := h p (by simp [keysOf])
    exact ⟨.KeyHash q, by rw [instantiate, hq]; rfl⟩
  | hMulti k keys =>
    obtain ⟨ks, hks⟩ := instKeys_ex f keys (fun p hp => h p (by simpa [keysOf] using hp))
    exact ⟨.Multi k ks, by rw [instantiate, hks]⟩
  | hHash hsh => exact ⟨.Hash hsh, rfl⟩
  | hTime n => exact ⟨.Time n, rfl⟩
  | hThreshold k subs ih =>
    obtain ⟨ds, hds⟩ := instantiateList_ex f subs
      (fun d hd => ih d hd (fun p hp => h p (by simpa [keysOf] using mem_keysOfList hd hp)))
    exact ⟨.Threshold k ds, by rw [instantiate, hds]⟩
  | hAnd l r ihl ihr =>
    obtain ⟨l', hl⟩ := ihl (fun p hp => h p (by simp [keysOf, hp]))
    obtain ⟨r', hr⟩ := ihr (fun p hp => h p (by simp [keysOf, hp]))
    exact ⟨.And l' r', by rw [instantiate, hl, hr]⟩
  | hOr l r ihl ihr =>
    obtain ⟨l', hl⟩ := ihl (fun p hp => h p (by simp [keysOf, hp]))
    obtain ⟨r', hr⟩ := ihr (fun p hp => h p (by simp [keysOf, hp]))
    exact ⟨.Or l' r', by rw [instantiate, hl, hr]⟩
  | hAOr l r ihl ihr =>
    obtain ⟨l', hl⟩ := ihl (fun p hp => h p (by simp [keysOf, hp]))
    obtain ⟨r', hr⟩ := ihr (fun p hp => h p (by simp [keysOf, hp]))
    exact ⟨.AsymmetricOr l' r', by rw [instantiate, hl, hr]⟩
  | hWpkh p =>
    obtain ⟨q, hq⟩ := h p (by simp [keysOf])
    exact ⟨.Wpkh q, by rw [instantiate, hq]; rfl⟩
  | hSh d ih =>
    obtain ⟨d', hd⟩ := ih (fun p hp => h p (by simpa [keysOf] using hp))
    exact ⟨.Sh d', by rw [instantiate, hd]; rfl⟩
  | hWsh d ih =>
    obtain ⟨d', hd⟩ := ih (fun p hp => h p (by simpa [keysOf] using hp))
    exact ⟨.Wsh d', by rw [instantiate, hd]; rfl⟩

theorem scanKeys_append {P Q E : Type} (f : P → Except E Q) (l1 l2 : List P) :
    scanKeys f (l1 ++ l2) =
      match scanKeys f l1 with
      | some e => some e
      | none => scanKeys f l2 := by
  induction l1 with
  | nil => rfl
  | cons p rest ih =>
    rw [List.cons_append, scanKeys, scanKeys]
    cases f p with
    | error e => rfl
    | ok q => simpa using ih

theorem scanKeys_none_iff {P Q E : Type} (f : P → Except E Q) (l : List P) :
    scanKeys f l = none ↔ ∀ p ∈ l, ∃ q, f p = .ok q := by
  induction l with
  | nil => simp [scanKeys]
  | cons p rest ih =>
    rw [scanKeys]
    cases hp : f p with
    | error e => simp [hp]
    | ok q =>
      simp only [ih]
      constructor
      · intro h x hx
        rcases List.mem_cons.mp hx with rfl | hx'
        · exact ⟨q, hp⟩
        · exact h x hx'
      · intro h x hx
        exact h x (by simp [hx])

theorem instKeys_err {P Q E : Type} (f : P → Except E Q) (keys : List P)
    (e : E) (h : scanKeys f keys = some e) : instKeys f keys = .error e := by
  induction keys with
  | nil => cases h
  | cons p rest ih =>
    rw [scanKeys] at h
    rw [instKeys]
    cases hp : f p with
    | error e' => rw [hp] at h; cases h; rfl
    | ok q =>
      rw [hp] at h
      rw [ih h]
      rfl

theorem instantiate_err {P Q E : Type} (f : P → Except E Q) (t : Descriptor P)
    (e : E) (h : scanKeys f (keysOf t) = some e) :
    instantiate f t = .error e := by
  induction t using descriptorInduction with
  | hKey p =>
    rw [keysOf, scanKeys] at h
    rw [instantiate]
    cases hp : f p with
    | error e' => rw [hp] at h; cases h; rfl
    | ok q => rw [hp] at h; cases h
  | hKeyHash p =>
    rw [keysOf, scanKeys] at h
    rw [instantiate]
    cases hp : f p with
    | error e' => rw [hp] at h; cases h; rfl
    | ok q => rw [hp] at h; cases h
  | hMulti k keys =>
    rw [keysOf] at h
    rw [instantiate, instKeys_err f keys e h]
  | hHash hsh => rw [keysOf] at h; cases h
  | hTime n => rw [keysOf] at h; cases h
  | hThreshold k subs ih =>
    rw [keysOf] at h
    rw [instantiate]
    have main : ∀ (subs' : List (Descriptor P)),
        (∀ d ∈ subs', scanKeys f (keysOf d) = some e → instantiate f d = .error e) →
        scanKeys f (keysOfList subs') = some e →
        instantiateList f subs' = .error e := by
      intro subs'
      induction subs' with
      | nil => intro _ hs; cases hs
      | cons d rest ihs =>
        intro hmem hs
        rw [keysOfList, scanKeys_append] at hs
        rw [instantiateList]
        cases hd : scanKeys f (keysOf d) with
        | some e' =>
          rw [hd] at hs
          cases hs
          rw [hmem d (by simp) hd]
        | none =>
          rw [hd] at hs
          obtain ⟨d', hd'⟩ := instantiate_ex f d ((scanKeys_none_iff f _).mp hd)
          rw [hd', ihs (fun x hx => hmem x (by simp [hx])) hs]
          rfl
    rw [main subs ih h]
  | hAnd l r ihl ihr =>
    rw [keysOf, scanKeys_append] at h
    rw [instantiate]
    cases hl : scanKeys f (keysOf l) with
    | some e' =>
      rw [hl] at h
      cases h
      rw [ihl hl]
    | none =>
      rw [hl] at h
      obtain ⟨l', hl'⟩ := instantiate_ex f l ((scanKeys_none_iff f _).mp hl)
      rw [hl', ihr h]
  | hOr l r ihl ihr =>
    rw [keysOf, scanKeys_append] at h
    rw [instantiate]
    cases hl : scanKeys f (keysOf l) with
    | some e' =>
      rw [hl] at h
      cases h
      rw [ihl hl]
    | none =>
      rw [hl] at h
      obtain ⟨l', hl'⟩ := instantiate_ex f l ((scanKeys_none_iff f _).mp hl)
      rw [hl', ihr h]
  | hAOr l r ihl ihr =>
    rw [keysOf, scanKeys_append] at h
    rw [instantiate]
    cases hl : scanKeys f (keysOf l) with
    | some e' =>
      rw [hl] at h
      cases h
      rw [ihl hl]
    | none =>
      rw [hl] at h
      obtain ⟨l', hl'⟩ := instantiate_ex f l ((scanKeys_none_iff f _).mp hl)
      rw [hl', ihr h]
  | hWpkh p =>
    rw [keysOf, scanKeys] at h
    rw [instantiate]
    cases hp : f p with
    | error e' => rw [hp] at h; cases h; rfl
    | ok q => rw [hp] at h; cases h
  | hSh d ih =>
    rw [keysOf] at h
    rw [instantiate, ih h]
    rfl
  | hWsh d ih =>
    rw [keysOf] at h
    rw [instantiate, ih h]
    rfl

theorem keyLeaf_ok {P : Type} (fp : List Nat → Except (List Nat) P)
    (args : List FunctionTree) (ctor : P → Descriptor P) (d : Descriptor P)
    (h : keyLeaf fp args ctor = .ok d) : ∃ p, d = ctor p := by
  unfold keyLeaf at h
  cases h0 : args[0]? with
  | none => simp only [h0] at h; simp at h
  | some pk =>
    simp only [h0] at h
    by_cases hae : pk.args.isEmpty
    · rw [if_pos hae] at h
      cases hfp : fp pk.name with
      | ok p =>
        simp only [hfp] at h
        injection h with h'
        exact ⟨p, h'.symm⟩
      | error e => simp only [hfp] at h; simp at h
    · rw [if_neg hae] at h
      cases h1 : pk.args[0]? with
      | none => simp only [h1] at h; simp at h
      | some sub => simp only [h1] at h; simp at h

theorem multiArm_ok {P : Type} (fp : List Nat → Except (List Nat) P)
    (args : List FunctionTree) (d : Descriptor P)
    (h : multiArm fp args = .ok d) :
    ∃ k keys, d = .Multi k keys ∧ k ≤ keys.length := by
  unfold multiArm at h
  cases hfind : args.find? (fun arg => !arg.args.isEmpty) with
  | some bad =>
    simp only [hfind] at h
    cases h1 : bad.args[0]? with
    | none => simp only [h1] at h; simp at h
    | some sub => simp only [h1] at h; simp at h
  | none =>
    simp only [hfind] at h
    cases h0 : args[0]? with
    | none => simp only [h0] at h; simp at h
    | some a0 =>
      simp only [h0] at h
      cases hn : parse_num a0.name with
      | error e =>
        simp only [hn] at h
        cases hfp : fp [] with
        | ok dd =>
          simp only [hfp] at h
          injection h with h'
          exact ⟨2, [dd, dd, dd], h'.symm, by simp⟩
        | error e' => simp only [hfp] at h; simp at h
      | ok thresh =>
        simp only [hn] at h
        by_cases hge : thresh ≥ args.length
        · rw [if_pos hge] at h; simp at h
        · rw [if_neg hge] at h
          cases hkl : keyList fp (args.drop 1) with
          | error e => simp only [hkl] at h; simp at h
          | ok keys =>
            simp only [hkl] at h
            injection h with h'
            have hlen := keyList_length fp _ _ hkl
            have hpos : args ≠ [] := by
              intro hh
              subst hh
              simp at h0
            have hlp : 0 < args.length := List.length_pos.mpr hpos
            refine ⟨thresh, keys, h'.symm, ?_⟩
            rw [List.length_drop] at hlen
            omega

theorem hashArm_ok {P : Type} (args : List FunctionTree) (d : Descriptor P)
    (h : hashArm args = .ok d) : ∃ hh, d = .Hash hh := by
  unfold hashArm at h
  cases h0 : args[0]? with
  | none => simp only [h0] at h; simp at h
  | some a0 =>
    simp only [h0] at h
    by_cases hsp : (a0.args.isEmpty && a0.name.isEmpty) = true
    · rw [if_pos hsp] at h
      injection h with h'
      exact ⟨_, h'.symm⟩
    · rw [if_neg hsp] at h
      by_cases hae : a0.args.isEmpty
      · rw [if_pos hae] at h
        cases h1 : a0.args[0]? with
        | none => simp only [h1] at h; simp at h
        | some sub =>
          simp only [h1] at h
          cases h2 : Sha256dHash.from_hex sub.name with
          | none => simp only [h2] at h; simp at h
          | some hsh =>
            simp only [h2] at h
            injection h with h'
            exact ⟨hsh, h'.symm⟩
      · rw [if_neg hae] at h
        cases h1 : a0.args[0]? with
        | none => simp only [h1] at h; simp at h
        | some sub => simp only [h1] at h; simp at h

theorem timeArm_ok {P : Type} (args : List FunctionTree) (d : Descriptor P)
    (h : timeArm args = .ok d) : ∃ n, d = .Time n := by
  unfold timeArm at h
  cases h0 : args[0]? with
  | none => simp only [h0] at h; simp at h
  | some a0 =>
    simp only [h0] at h
    by_cases hsp : (a0.args.isEmpty && a0.name.isEmpty) = true
    · rw [if_pos hsp] at h
      injection h with h'
      exact ⟨_, h'.symm⟩
    · rw [if_neg hsp] at h
      by_cases hae : a0.args.isEmpty
      · rw [if_pos hae] at h
        cases h1 : a0.args[0]? with
        | none => simp only [h1] at h; simp at h
        | some sub =>
          simp only [h1] at h
          cases h2 : parse_num sub.name with
          | ok n =>
            simp only [h2] at h
            injection h with h'
            exact ⟨n, h'.symm⟩
          | error e => simp only [h2] at h; simp at h
      · rw [if_neg hae] at h
        cases h1 : a0.args[0]? with
        | none => simp only [h1] at h; simp at h
        | some sub => simp only [h1] at h; simp at h

theorem binArm_ok {P : Type} (ctor : Descriptor P → Descriptor P → Descriptor P)
    (r0 r1 : DResult P) (d : Descriptor P) (h : binArm ctor r0 r1 = .ok d) :
    ∃ l r, d = ctor l r := by
  cases r0 with
  | err e => simp [binArm] at h
  | crash => simp [binArm] at h
  | ok l =>
    cases r1 with
    | err e => simp [binArm] at h
    | crash => simp [binArm] at h
    | ok r =>
      rw [binArm] at h
      injection h with h'
      exact ⟨l, r, h'.symm⟩

theorem unArm_ok {P : Type} (ctor : Descriptor P → Descriptor P)
    (r0 : DResult P) (d : Descriptor P) (h : unArm ctor r0 = .ok d) :
    ∃ s, d = ctor s := by
  cases r0 with
  | err e => simp [unArm] at h
  | crash => simp [unArm] at h
  | ok s =>
    rw [unArm] at h
    injection h with h'
    exact ⟨s, h'.symm⟩

/-- The `thres` arm of `fromTreeStep` only succeeds with a `Threshold` whose
count is at most the number of sub-descriptors; every successful arm of
`from_tree` respects the count invariants. -/
theorem fromTree_ok_inv {P : Type} (fp : List Nat → Except (List Nat) P)
    (t : FunctionTree) (d : Descriptor P) (h : fromTree fp t = .ok d) :
    (∀ k keys, d = .Multi k keys → k ≤ keys.length) ∧
    (∀ k subs, d = .Threshold k subs → k ≤ subs.length) := by
  cases t with
  | mk name args =>
    rw [fromTree] at h
    unfold fromTreeStep at h
    by_cases hc1 : name = strBytes "pk" ∧ args.length = 1
    · rw [if_pos hc1] at h
      obtain ⟨p, rfl⟩ := keyLeaf_ok _ _ _ _ h
      exact ⟨fun _ _ hh => by simp at hh, fun _ _ hh => by simp at hh⟩
    rw [if_neg hc1] at h
    by_cases hc2 : name = strBytes "pkh" ∧ args.length = 1
    · rw [if_pos hc2] at h
      obtain ⟨p, rfl⟩ := keyLeaf_ok _ _ _ _ h
      exact ⟨fun _ _ hh => by simp at hh, fun _ _ hh => by simp at hh⟩
    rw [if_neg hc2] at h
    by_cases hc3 : name = strBytes "multi"
    · rw [if_pos hc3] at h
      obtain ⟨k, keys, rfl, hb⟩ := multiArm_ok _ _ _ h
      refine ⟨fun k' keys' hh => ?_, fun _ _ hh => by simp at hh⟩
      injection hh with h1 h2
      subst h1; subst h2
      exact hb
    rw [if_neg hc3] at h
    by_cases hc4 : name = strBytes "hash" ∧ args.length = 1
    · rw [if_pos hc4] at h
      obtain ⟨hh, rfl⟩ := hashArm_ok _ _ h
      exact ⟨fun _ _ hh => by simp at hh, fun _ _ hh => by simp at hh⟩
    rw [if_neg hc4] at h
    by_cases hc5 : name = strBytes "time" ∧ args.length = 1
    · rw [if_pos hc5] at h
      obtain ⟨n, rfl⟩ := timeArm_ok _ _ h
      exact ⟨fun _ _ hh => by simp at hh, fun _ _ hh => by simp at hh⟩
    rw [if_neg hc5] at h
    by_cases hc6 : name = strBytes "thres"
    · rw [if_pos hc6] at h
      cases args with
      | nil => simp at h
      | cons a0 rest =>
        simp only [] at h
        by_cases hae : (!a0.args.isEmpty) = true
        · rw [if_pos hae] at h
          cases h1 : a0.args[0]? with
          | none => simp only [h1] at h; simp at h
          | some sub => simp only [h1] at h; simp at h
        · rw [if_neg hae] at h
          cases hn : parse_num a0.name with
          | error e => simp only [hn] at h; simp at h
          | ok thresh =>
            simp only [hn] at h
            by_cases hge : thresh ≥ rest.length + 1
            · rw [if_pos hge] at h; simp at h
            · rw [if_neg hge] at h
              cases hcr : combineResults ((childResults fp (a0 :: rest)).drop 1) with
              | err e => simp only [hcr] at h; simp at h
              | crash => simp only [hcr] at h; simp at h
              | ok subs =>
                simp only [hcr] at h
                injection h with h'
                subst h'
                refine ⟨fun _ _ hh => by simp at hh, fun k' subs' hh => ?_⟩
                injection hh with h1 h2
                subst h1; subst h2
                have hlen := combineResults_length _ _ hcr
                rw [childResults] at hlen
                simp at hlen
                rw [childResults_length] at hlen
                omega
    rw [if_neg hc6] at h
    by_cases hc7 : name = strBytes "and" ∧ args.length = 2
    · rw [if_pos hc7] at h
      rcases hcr : childResults fp args with _ | ⟨r0, _ | ⟨r1, _ | _⟩⟩ <;>
          simp only [hcr] at h <;> try simp at h
      obtain ⟨l, r, rfl⟩ := binArm_ok _ _ _ _ h
      exact ⟨fun _ _ hh => by simp at hh, fun _ _ hh => by simp at hh⟩
    rw [if_neg hc7] at h
    by_cases hc8 : name = strBytes "or" ∧ args.length = 2
    · rw [if_pos hc8] at h
      rcases hcr : childResults fp args with _ | ⟨r0, _ | ⟨r1, _ | _⟩⟩ <;>
          simp only [hcr] at h <;> try simp at h
      obtain ⟨l, r, rfl⟩ := binArm_ok _ _ _ _ h
      exact ⟨fun _ _ hh => by simp at hh, fun _ _ hh => by simp at hh⟩
    rw [if_neg hc8] at h
    by_cases hc9 : name = strBytes "aor" ∧ args.length = 2
    · rw [if_pos hc9] at h
      rcases hcr : childResults fp args with _ | ⟨r0, _ | ⟨r1, _ | _⟩⟩ <;>
          simp only [hcr] at h <;> try simp at h
      obtain ⟨l, r, rfl⟩ := binArm_ok _ _ _ _ h
      exact ⟨fun _ _ hh => by simp at hh, fun _ _ hh => by simp at hh⟩
    rw [if_neg hc9] at h
    by_cases hc10 : name = strBytes "wpkh" ∧ args.length = 1
    · rw [if_pos hc10] at h
      obtain ⟨p, rfl⟩ := keyLeaf_ok _ _ _ _ h
      exact ⟨fun _ _ hh => by simp at hh, fun _ _ hh => by simp at hh⟩
    rw [if_neg hc10] at h
    by_cases hc11 : name = strBytes "sh" ∧ args.length = 1
    · rw [if_pos hc11] at h
      rcases hcr : childResults fp args with _ | ⟨r0, _ | _⟩ <;> simp only [hcr] at h <;> try simp at h
      obtain ⟨s, rfl⟩ := unArm_ok _ _ _ h
      exact ⟨fun _ _ hh => by simp at hh, fun _ _ hh => by simp at hh⟩
    rw [if_neg hc11] at h
    by_cases hc12 : name = strBytes "wsh" ∧ args.length = 1
    · rw [if_pos hc12] at h
      rcases hcr : childResults fp args with _ | ⟨r0, _ | _⟩ <;> simp only [hcr] at h <;> try simp at h
      obtain ⟨s, rfl⟩ := unArm_ok _ _ _ h
      exact ⟨fun _ _ hh => by simp at hh, fun _ _ hh => by simp at hh⟩
    rw [if_neg hc12] at h
    simp at h

theorem parse_num_err (s : List Nat) (e : Error) (h : parse_num s = .error e) :
    e = errorize s := by
  rw [parse_num] at h
  cases hu : u32FromStr s with
  | some n => rw [hu] at h; cases h
  | none =>
    rw [hu] at h
    injection h with h'
    exact h'.symm

theorem keyLeaf_err {P : Type} (fp : List Nat → Except (List Nat) P)
    (args : List FunctionTree) (ctor : P → Descriptor P) (e : Error)
    (h : keyLeaf fp args ctor = .err e) : ∃ tok, e = .unexpected tok := by
  unfold keyLeaf at h
  cases h0 : args[0]? with
  | none => simp only [h0] at h; simp at h
  | some pk =>
    simp only [h0] at h
    by_cases hae : pk.args.isEmpty
    · rw [if_pos hae] at h
      cases hfp : fp pk.name with
      | ok p => simp only [hfp] at h; simp at h
      | error e' =>
        simp only [hfp] at h
        injection h with h'
        exact ⟨e', h'.symm⟩
    · rw [if_neg hae] at h
      cases h1 : pk.args[0]? with
      | none => simp only [h1] at h; simp at h
      | some sub =>
        simp only [h1] at h
        injection h with h'
        exact ⟨sub.name, h'.symm⟩

theorem multiArm_err {P : Type} (fp : List Nat → Except (List Nat) P)
    (args : List FunctionTree) (e : Error) (h : multiArm fp args = .err e) :
    ∃ tok, e = .unexpected tok := by
  unfold multiArm at h
  cases hfind : args.find? (fun arg => !arg.args.isEmpty) with
  | some bad =>
    simp only [hfind] at h
    cases h1 : bad.args[0]? with
    | none => simp only [h1] at h; simp at h
    | some sub =>
      simp only [h1] at h
      injection h with h'
      exact ⟨sub.name, h'.symm⟩
  | none =>
    simp only [hfind] at h
    cases h0 : args[0]? with
    | none => simp only [h0] at h; simp at h
    | some a0 =>
      simp only [h0] at h
      cases hn : parse_num a0.name with
      | error e' =>
        simp only [hn] at h
        cases hfp : fp [] with
        | ok dd => simp only [hfp] at h; simp at h
        | error e'' => simp only [hfp] at h; simp at h
      | ok thresh =>
        simp only [hn] at h
        by_cases hge : thresh ≥ args.length
        · rw [if_pos hge] at h
          injection h with h'
          exact ⟨_, h'.symm⟩
        · rw [if_neg hge] at h
          cases hkl : keyList fp (args.drop 1) with
          | error e' =>
            simp only [hkl] at h
            injection h with h'
            exact ⟨e', h'.symm⟩
          | ok keys => simp only [hkl] at h; simp at h

theorem hashArm_err {P : Type} (args : List FunctionTree) (e : Error)
    (h : hashArm (P := P) args = .err e) : ∃ tok, e = .unexpected tok := by
  unfold hashArm at h
  cases h0 : args[0]? with
  | none => simp only [h0] at h; simp at h
  | some a0 =>
    simp only [h0] at h
    by_cases hsp : (a0.args.isEmpty && a0.name.isEmpty) = true
    · rw [if_pos hsp] at h; simp at h
    · rw [if_neg hsp] at h
      by_cases hae : a0.args.isEmpty
      · rw [if_pos hae] at h
        cases h1 : a0.args[0]? with
        | none => simp only [h1] at h; simp at h
        | some sub =>
          simp only [h1] at h
          cases h2 : Sha256dHash.from_hex sub.name with
          | some hsh => simp only [h2] at h; simp at h
          | none =>
            simp only [h2] at h
            injection h with h'
            exact ⟨sub.name, h'.symm⟩
      · rw [if_neg hae] at h
        cases h1 : a0.args[0]? with
        | none => simp only [h1] at h; simp at h
        | some sub =>
          simp only [h1] at h
          injection h with h'
          exact ⟨sub.name, h'.symm⟩

theorem timeArm_err {P : Type} (args : List FunctionTree) (e : Error)
    (h : timeArm (P := P) args = .err e) : ∃ tok, e = .unexpected tok := by
  unfold timeArm at h
  cases h0 : args[0]? with
  | none => simp only [h0] at h; simp at h
  | some a0 =>
    simp only [h0] at h
    by_cases hsp : (a0.args.isEmpty && a0.name.isEmpty) = true
    · rw [if_pos hsp] at h; simp at h
    · rw [if_neg hsp] at h
      by_cases hae : a0.args.isEmpty
      · rw [if_pos hae] at h
        cases h1 : a0.args[0]? with
        | none => simp only [h1] at h; simp at h
        | some sub =>
          simp only [h1] at h
          cases h2 : parse_num sub.name with
          | ok n => simp only [h2] at h; simp at h
          | error e' =>
            simp only [h2] at h
            injection h with h'
            subst h'
            exact ⟨sub.name, parse_num_err _ _ h2⟩
      · rw [if_neg hae] at h
        cases h1 : a0.args[0]? with
        | none => simp only [h1] at h; simp at h
        | some sub =>
          simp only [h1] at h
          injection h with h'
          exact ⟨sub.name, h'.symm⟩

theorem binArm_err {P : Type} (ctor : Descriptor P → Descriptor P → Descriptor P)
    (r0 r1 : DResult P) (e : Error) (h : binArm ctor r0 r1 = .err e) :
    r0 = .err e ∨ r1 = .err e := by
  cases r0 with
  | err e' => rw [binArm] at h; injection h with h'; subst h'; exact .inl rfl
  | crash => cases r1 <;> simp [binArm] at h
  | ok l =>
    cases r1 with
    | err e' => rw [binArm] at h; injection h with h'; subst h'; exact .inr rfl
    | crash => simp [binArm] at h
    | ok r => simp [binArm] at h

theorem unArm_err {P : Type} (ctor : Descriptor P → Descriptor P)
    (r0 : DResult P) (e : Error) (h : unArm ctor r0 = .err e) : r0 = .err e := by
  cases r0 with
  | err e' => rw [unArm] at h; injection h with h'; subst h'; rfl
  | crash => simp [unArm] at h
  | ok s => simp [unArm] at h

theorem combineResults_err {P : Type} (l : List (DResult P)) (e : Error)
    (h : combineResults l = .err e) : DResult.err e ∈ l := by
  induction l with
  | nil => cases h
  | cons r rs ih =>
    simp only [combineResults] at h
    cases r with
    | err e' => injection h with h'; subst h'; exact List.mem_cons_self _ _
    | crash => cases h
    | ok d =>
      cases hrs : combineResults rs with
      | err e' =>
        rw [hrs] at h
        injection h with h'
        subst h'
        exact List.mem_cons_of_mem _ (ih hrs)
      | crash => rw [hrs] at h; cases h
      | ok ds => rw [hrs] at h; cases h

theorem childResults_mem {P : Type} (fp : List Nat → Except (List Nat) P)
    (l : List FunctionTree) (r : DResult P) (h : r ∈ childResults fp l) :
    ∃ t ∈ l, r = fromTree fp t := by
  induction l with
  | nil => cases h
  | cons t ts ih =>
    rw [childResults] at h
    rcases List.mem_cons.mp h with rfl | h'
    · exact ⟨t, by simp, rfl⟩
    · obtain ⟨t', ht', rfl⟩ := ih h'
      exact ⟨t', by simp [ht'], rfl⟩

/-- Every error `Descriptor::from_tree` itself reports is an
`Error::Unexpected`: unknown names, malformed leaves, threshold violations
and key-parser failures are all routed through `errorize`/`Unexpected`. -/
theorem fromTree_err_unexpected {P : Type} (fp : List Nat → Except (List Nat) P) :
    ∀ (t : FunctionTree) (e : Error), fromTree fp t = .err e →
      ∃ tok, e = .unexpected tok := by
  intro t
  induction t using functionTreeInduction with
  | _ name args ih =>
    intro e h
    rw [fromTree] at h
    unfold fromTreeStep at h
    by_cases hc1 : name = strBytes "pk" ∧ args.length = 1
    · rw [if_pos hc1] at h
      exact keyLeaf_err _ _ _ _ h
    rw [if_neg hc1] at h
    by_cases hc2 : name = strBytes "pkh" ∧ args.length = 1
    · rw [if_pos hc2] at h
      exact keyLeaf_err _ _ _ _ h
    rw [if_neg hc2] at h
    by_cases hc3 : name = strBytes "multi"
    · rw [if_pos hc3] at h
      exact multiArm_err _ _ _ h
    rw [if_neg hc3] at h
    by_cases hc4 : name = strBytes "hash" ∧ args.length = 1
    · rw [if_pos hc4] at h
      exact hashArm_err _ _ h
    rw [if_neg hc4] at h
    by_cases hc5 : name = strBytes "time" ∧ args.length = 1
    · rw [if_pos hc5] at h
      exact timeArm_err _ _ h
    rw [if_neg hc5] at h
    by_cases hc6 : name = strBytes "thres"
    · rw [if_pos hc6] at h
      cases args with
      | nil => simp at h
      | cons a0 rest =>
        simp only [] at h
        by_cases hae : (!a0.args.isEmpty) = true
        · rw [if_pos hae] at h
          cases h1 : a0.args[0]? with
          | none => simp only [h1] at h; simp at h
          | some sub =>
            simp only [h1] at h
            injection h with h'
            exact ⟨sub.name, h'.symm⟩
        · rw [if_neg hae] at h
          cases hn : parse_num a0.name with
          | error e' =>
            simp only [hn] at h
            injection h with h'
            subst h'
            exact ⟨a0.name, parse_num_err _ _ hn⟩
          | ok thresh =>
            simp only [hn] at h
            by_cases hge : thresh ≥ rest.length + 1
            · rw [if_pos hge] at h
              injection h with h'
              exact ⟨a0.name, h'.symm⟩
            · rw [if_neg hge] at h
              cases hcr : combineResults ((childResults fp (a0 :: rest)).drop 1) with
              | ok subs => simp only [hcr] at h; simp at h
              | crash => simp only [hcr] at h; simp at h
              | err e' =>
                simp only [hcr] at h
                injection h with h'
                subst h'
                have hmem := combineResults_err _ _ hcr
                rw [childResults] at hmem
                simp only [List.drop_succ_cons, List.drop_zero] at hmem
                obtain ⟨t', ht', heq⟩ := childResults_mem fp rest _ hmem
                exact ih t' (by simp [ht']) _ heq.symm
    rw [if_neg hc6] at h
    by_cases hc7 : name = strBytes "and" ∧ args.length = 2
    · rw [if_pos hc7] at h
      obtain ⟨a, b, rfl⟩ := List.length_eq_two.mp hc7.2
      rw [childResults, childResults, childResults] at h
      simp only [] at h
      rcases binArm_err _ _ _ _ h with he | he
      · exact ih a (by simp) e he
      · exact ih b (by simp) e he
    rw [if_neg hc7] at h
    by_cases hc8 : name = strBytes "or" ∧ args.length = 2
    · rw [if_pos hc8] at h
      obtain ⟨a, b, rfl⟩ := List.length_eq_two.mp hc8.2
      rw [childResults, childResults, childResults] at h
      simp only [] at h
      rcases binArm_err _ _ _ _ h with he | he
      · exact ih a (by simp) e he
      · exact ih b (by simp) e he
    rw [if_neg hc8] at h
    by_cases hc9 : name = strBytes "aor" ∧ args.length = 2
    · rw [if_pos hc9] at h
      obtain ⟨a, b, rfl⟩ := List.length_eq_two.mp hc9.2
      rw [childResults, childResults, childResults] at h
      simp only [] at h
      rcases binArm_err _ _ _ _ h with he | he
      · exact ih a (by simp) e he
      · exact ih b (by simp) e he
    rw [if_neg hc9] at h
    by_cases hc10 : name = strBytes "wpkh" ∧ args.length = 1
    · rw [if_pos hc10] at h
      exact keyLeaf_err _ _ _ _ h
    rw [if_neg hc10] at h
    by_cases hc11 : name = strBytes "sh" ∧ args.length = 1
    · rw [if_pos hc11] at h
      obtain ⟨a, rfl⟩ := List.length_eq_one.mp hc11.2
      rw [childResults, childResults] at h
      simp only [] at h
      exact ih a (by simp) e (unArm_err _ _ _ h)
    rw [if_neg hc11] at h
    by_cases hc12 : name = strBytes "wsh" ∧ args.length = 1
    · rw [if_pos hc12] at h
      obtain ⟨a, rfl⟩ := List.length_eq_one.mp hc12.2
      rw [childResults, childResults] at h
      simp only [] at h
      exact ih a (by simp) e (unArm_err _ _ _ h)
    rw [if_neg hc12] at h
    injection h with h'
    exact ⟨name, h'.symm⟩

theorem firstUnprintable_some_iff (s : List Nat) (b : Nat) :
    firstUnprintable s = some b ↔
      ∃ pre post, s = pre ++ b :: post ∧ (∀ c ∈ pre, 20 ≤ c ∧ c ≤ 127) ∧
        (b < 20 ∨ 127 < b) := by
  induction s with
  | nil =>
    simp only [firstUnprintable]
    constructor
    · intro h; cases h
    · rintro ⟨pre, post, h, -, -⟩
      cases pre <;> cases h
  | cons c rest ih =>
    rw [firstUnprintable]
    by_cases hc : c < 20 ∨ c > 127
    · rw [if_pos hc]
      constructor
      · intro h
        injection h with h'
        subst h'
        exact ⟨[], rest, rfl, by simp, hc⟩
      · rintro ⟨pre, post, heq, hpre, hb⟩
        cases pre with
        | nil =>
          injection heq with h1 h2
          rw [h1]
        | cons p pre' =>
          injection heq with h1 h2
          subst h1
          have := hpre c (by simp)
          omega
    · rw [if_neg hc]
      rw [ih]
      constructor
      · rintro ⟨pre, post, heq, hpre, hb⟩
        refine ⟨c :: pre, post, by rw [heq]; rfl, ?_, hb⟩
        intro x hx
        rcases List.mem_cons.mp hx with rfl | hx'
        · omega
        · exact hpre x hx'
      · rintro ⟨pre, post, heq, hpre, hb⟩
        cases pre with
        | nil =>
          injection heq with h1 h2
          subst h1
          omega
        | cons p pre' =>
          injection heq with h1 h2
          subst h1
          exact ⟨pre', post, h2, fun x hx => hpre x (by simp [hx]), hb⟩

/-- The raw parser constructs only `ExpectedChar(')')` and `ExpectedChar(',')`
errors. -/
theorem sliceF_err (fuel : Nat) :
    (∀ sl e, fromSliceF fuel sl = some (.error e) →
      e = .expectedChar 41 ∨ e = .expectedChar 44) ∧
    (∀ sl e, parseArgsF fuel sl = some (.error e) →
      e = .expectedChar 41 ∨ e = .expectedChar 44) := by
  induction fuel with
  | zero => constructor <;> intro sl e h <;> cases h
  | succ fuel ih =>
    constructor
    · intro sl e h
      rw [fromSliceF] at h
      cases hf : findSpecial sl with
      | none =>
        simp only [hf] at h
        injection h with h'
        injection h' with h''
        exact .inl h''.symm
      | some nc =>
        obtain ⟨n, c⟩ := nc
        simp only [hf] at h
        by_cases hc : c = 40
        · rw [if_pos hc] at h
          cases hp : parseArgsF fuel (sl.drop (n + 1)) with
          | none => simp only [hp] at h; simp at h
          | some r =>
            simp only [hp] at h
            cases r with
            | error e' =>
              injection h with h'
              injection h' with h''
              exact h'' ▸ ih.2 _ _ hp
            | ok pr => obtain ⟨args, rem⟩ := pr; simp at h
        · rw [if_neg hc] at h
          simp at h
    · intro sl e h
      rw [parseArgsF] at h
      cases hfs : fromSliceF fuel sl with
      | none => simp only [hfs] at h; simp at h
      | some r =>
        simp only [hfs] at h
        cases r with
        | error e' =>
          injection h with h'
          injection h' with h''
          exact h'' ▸ ih.1 _ _ hfs
        | ok pr =>
          obtain ⟨arg, newSl⟩ := pr
          cases newSl with
          | nil =>
            simp only [] at h
            injection h with h'
            injection h' with h''
            exact .inl h''.symm
          | cons c tail =>
            simp only [] at h
            by_cases hc : c = 44
            · rw [if_pos hc] at h
              cases hp : parseArgsF fuel tail with
              | none => simp only [hp] at h; simp at h
              | some r' =>
                simp only [hp] at h
                cases r' with
                | error e' =>
                  injection h with h'
                  injection h' with h''
                  exact h'' ▸ ih.2 _ _ hp
                | ok pr' => obtain ⟨args, rem⟩ := pr'; simp at h
            · rw [if_neg hc] at h
              by_cases hc2 : c = 41
              · rw [if_pos hc2] at h; simp at h
              · rw [if_neg hc2] at h
                injection h with h'
                injection h' with h''
                exact .inr h''.symm

theorem from_slice_err (sl : List Nat) (e : Error)
    (h : FunctionTree.from_slice sl = .error e) :
    e = .expectedChar 41 ∨ e = .expectedChar 44 := by
  rw [FunctionTree.from_slice] at h
  cases hf : fromSliceF (2 * sl.length + 1) sl with
  | none =>
    simp only [hf] at h
    injection h with h'
    exact .inl h'.symm
  | some r =>
    simp only [hf] at h
    exact (sliceF_err _).1 sl e (by rw [hf, h])

theorem findSpecial_append (pre : List Nat)
    (hpre : ∀ b ∈ pre, ¬(b = 40 ∨ b = 44 ∨ b = 41)) (x : List Nat) :
    findSpecial (pre ++ x) = (findSpecial x).map (fun q => (q.1 + pre.length, q.2)) := by
  induction pre with
  | nil =>
    simp only [List.nil_append, List.length_nil]
    cases findSpecial x <;> simp
  | cons c rest ih =>
    rw [List.cons_append, findSpecial, if_neg (hpre c (by simp)),
      ih (fun b hb => hpre b (by simp [hb]))]
    cases findSpecial x <;> simp
    omega

/-- Results of the fueled parser are stable under adding fuel. -/
theorem sliceF_mono (fuel : Nat) :
    (∀ sl r, fromSliceF fuel sl = some r → fromSliceF (fuel + 1) sl = some r) ∧
    (∀ sl r, parseArgsF fuel sl = some r → parseArgsF (fuel + 1) sl = some r) := by
  induction fuel with
  | zero => constructor <;> intro sl r h <;> cases h
  | succ fuel ih =>
    constructor
    · intro sl r h
      rw [fromSliceF] at h ⊢
      cases hf : findSpecial sl with
      | none =>
        simp only [hf] at h ⊢
        exact h
      | some nc =>
        obtain ⟨n, c⟩ := nc
        simp only [hf] at h ⊢
        by_cases hc : c = 40
        · rw [if_pos hc] at h ⊢
          cases hp : parseArgsF fuel (sl.drop (n + 1)) with
          | none => simp only [hp] at h; cases h
          | some r' =>
            simp only [hp] at h
            simp only [ih.2 _ _ hp]
            exact h
        · rw [if_neg hc] at h ⊢
          exact h
    · intro sl r h
      rw [parseArgsF] at h ⊢
      cases hfs : fromSliceF fuel sl with
      | none => simp only [hfs] at h; cases h
      | some r' =>
        simp only [hfs] at h
        simp only [ih.1 _ _ hfs]
        cases r' with
        | error e => exact h
        | ok pr =>
          obtain ⟨arg, newSl⟩ := pr
          cases newSl with
          | nil => exact h
          | cons c tail =>
            simp only [] at h ⊢
            by_cases hc : c = 44
            · rw [if_pos hc] at h ⊢
              cases hp : parseArgsF fuel tail with
              | none => simp only [hp] at h; cases h
              | some r'' =>
                simp only [hp] at h
                simp only [ih.2 _ _ hp]
                exact h
            · rw [if_neg hc] at h ⊢
              exact h

theorem sliceF_mono_le (fuel fuel' : Nat) (hle : fuel ≤ fuel') (sl : List Nat)
    (r : Except Error (FunctionTree × List Nat))
    (h : fromSliceF fuel sl = some r) : fromSliceF fuel' sl = some r := by
  induction fuel' with
  | zero =>
    have : fuel = 0 := Nat.le_zero.mp hle
    subst this
    exact h
  | succ fuel' ih =>
    rcases Nat.lt_or_ge fuel (fuel' + 1) with hlt | hge
    · exact (sliceF_mono fuel').1 sl r (ih (Nat.lt_succ_iff.mp hlt))
    · have : fuel = fuel' + 1 := Nat.le_antisymm hle hge
      subst this
      exact h

theorem findSpecial_lt (sl : List Nat) : ∀ n c,
    findSpecial sl = some (n, c) → n < sl.length := by
  induction sl with
  | nil => intro n c h; cases h
  | cons b rest ih =>
    intro n c h
    rw [findSpecial] at h
    by_cases hb : b = 40 ∨ b = 44 ∨ b = 41
    · rw [if_pos hb] at h
      injection h with h'
      injection h' with h1 h2
      simp [← h1]
    · rw [if_neg hb] at h
      cases hf : findSpecial rest with
      | none => rw [hf] at h; cases h
      | some mc =>
        obtain ⟨m, c'⟩ := mc
        rw [hf] at h
        injection h with h'
        injection h' with h1 h2
        have := ih m c' hf
        simp [← h1]
        omega

/-- Remainders returned by the fueled parser are (strict, for the argument
loop) suffix-length bounded by the input. -/
theorem sliceF_rem_length (fuel : Nat) :
    (∀ sl t rem, fromSliceF fuel sl = some (.ok (t, rem)) → rem.length ≤ sl.length) ∧
    (∀ sl args rem, parseArgsF fuel sl = some (.ok (args, rem)) → rem.length < sl.length) := by
  induction fuel with
  | zero => constructor <;> intro sl x rem h <;> cases h
  | succ fuel ih =>
    constructor
    · intro sl t rem h
      rw [fromSliceF] at h
      cases hf : findSpecial sl with
      | none => simp only [hf] at h; simp at h
      | some nc =>
        obtain ⟨n, c⟩ := nc
        simp only [hf] at h
        by_cases hc : c = 40
        · rw [if_pos hc] at h
          cases hp : parseArgsF fuel (sl.drop (n + 1)) with
          | none => simp only [hp] at h; cases h
          | some r =>
            simp only [hp] at h
            cases r with
            | error e => simp at h
            | ok pr =>
              obtain ⟨args', rem'⟩ := pr
              simp only [] at h
              injection h with h'
              injection h' with h'
              have h1 := ih.2 _ _ _ hp
              have h2 : (sl.drop (n + 1)).length ≤ sl.length := by
                rw [List.length_drop]
                omega
              have h3 : rem' = rem := congrArg Prod.snd h'
              rw [← h3]
              omega
        · rw [if_neg hc] at h
          injection h with h'
          injection h' with h'
          have h3 : sl.drop n = rem := congrArg Prod.snd h'
          rw [← h3, List.length_drop]
          omega
    · intro sl args rem h
      rw [parseArgsF] at h
      cases hfs : fromSliceF fuel sl with
      | none => simp only [hfs] at h; cases h
      | some r =>
        simp only [hfs] at h
        cases r with
        | error e => simp at h
        | ok pr =>
          obtain ⟨arg, newSl⟩ := pr
          have hlen := ih.1 _ _ _ hfs
          cases newSl with
          | nil => simp at h
          | cons c tail =>
            simp only [] at h
            rw [List.length_cons] at hlen
            by_cases hc : c = 44
            · rw [if_pos hc] at h
              cases hp : parseArgsF fuel tail with
              | none => simp only [hp] at h; cases h
              | some r' =>
                simp only [hp] at h
                cases r' with
                | error e => simp at h
                | ok pr' =>
                  obtain ⟨args', rem'⟩ := pr'
                  simp only [] at h
                  injection h with h'
                  injection h' with h'
                  have h1 := ih.2 _ _ _ hp
                  have h3 : rem' = rem := congrArg Prod.snd h'
                  rw [← h3]
                  omega
            · rw [if_neg hc] at h
              by_cases hc2 : c = 41
              · rw [if_pos hc2] at h
                injection h with h'
                injection h' with h'
                have h3 : tail = rem := congrArg Prod.snd h'
                rw [← h3]
                omega
              · rw [if_neg hc2] at h
                simp at h

/-- The wrapper fuel `2 * sl.length + 1` always suffices, so
`FunctionTree.from_slice` computes exactly the source recursion and its
fallback branch is unreachable. -/
theorem fromSliceF_isSome_aux (fuel : Nat) :
    (∀ sl, 2 * sl.length + 1 ≤ fuel → (fromSliceF fuel sl).isSome) ∧
    (∀ sl, 2 * sl.length + 2 ≤ fuel → (parseArgsF fuel sl).isSome) := by
  induction fuel with
  | zero => constructor <;> intro sl hle <;> omega
  | succ fuel ih =>
    constructor
    · intro sl hle
      rw [fromSliceF]
      cases hf : findSpecial sl with
      | none => simp
      | some nc =>
        obtain ⟨n, c⟩ := nc
        have hn := findSpecial_lt sl n c hf
        simp only []
        by_cases hc : c = 40
        · rw [if_pos hc]
          have hb : 2 * (sl.drop (n + 1)).length + 2 ≤ fuel := by
            rw [List.length_drop]
            omega
          obtain ⟨r, hr⟩ := Option.isSome_iff_exists.mp (ih.2 _ hb)
          rw [hr]
          cases r with
          | error e => simp
          | ok pr => obtain ⟨args', rem'⟩ := pr; simp
        · rw [if_neg hc]
          simp
    · intro sl hle
      rw [parseArgsF]
      have hb : 2 * sl.length + 1 ≤ fuel := by omega
      obtain ⟨r, hr⟩ := Option.isSome_iff_exists.mp (ih.1 _ hb)
      rw [hr]
      cases r with
      | error e => simp
      | ok pr =>
        obtain ⟨arg, newSl⟩ := pr
        have hlen := (sliceF_rem_length fuel).1 _ _ _ hr
        cases newSl with
        | nil => simp
        | cons c tail =>
          rw [List.length_cons] at hlen
          simp only []
          by_cases hc : c = 44
          · rw [if_pos hc]
            have hb2 : 2 * tail.length + 2 ≤ fuel := by omega
            obtain ⟨r', hr'⟩ := Option.isSome_iff_exists.mp (ih.2 _ hb2)
            rw [hr']
            cases r' with
            | error e => simp
            | ok pr' => obtain ⟨args', rem'⟩ := pr'; simp
          · rw [if_neg hc]
            by_cases hc2 : c = 41
            · rw [if_pos hc2]; simp
            · rw [if_neg hc2]; simp

theorem fromSliceF_isSome (sl : List Nat) :
    (fromSliceF (2 * sl.length + 1) sl).isSome :=
  (fromSliceF_isSome_aux (2 * sl.length + 1)).1 sl le_rfl

theorem drop_after_lparen (nm x : List Nat) :
    (nm ++ 40 :: x).drop (nm.length + 1) = x := by
  rw [show nm ++ 40 :: x = (nm ++ [40]) ++ x by simp,
    show nm.length + 1 = (nm ++ [40]).length by simp]
  exact List.drop_left _ _

/-- Parsing a rendered leaf `nm(p` followed by `)rest`: the name and the
single atomic argument are recovered and `rest` is the remainder. -/
theorem rt_leaf (nm p : List Nat)
    (hnm : ∀ b ∈ nm, ¬(b = 40 ∨ b = 44 ∨ b = 41))
    (hp : ∀ b ∈ p, ¬(b = 40 ∨ b = 44 ∨ b = 41)) (rest : List Nat) :
    fromSliceF 3 (nm ++ 40 :: (p ++ 41 :: rest)) =
      some (.ok (.mk nm [.mk p []], rest)) := by
  have h2 : findSpecial (p ++ 41 :: rest) = some (p.length, 41) := by
    rw [findSpecial_append p hp]
    rw [findSpecial, if_pos (by simp)]
    simp
  have hslice1 : fromSliceF 1 (p ++ 41 :: rest) = some (.ok (.mk p [], 41 :: rest)) := by
    show fromSliceF (0 + 1) _ = _
    rw [fromSliceF]
    simp only [h2]
    rw [if_neg (by decide), List.take_left, List.drop_left]
  have hargs : parseArgsF 2 (p ++ 41 :: rest) = some (.ok ([.mk p []], rest)) := by
    show parseArgsF (1 + 1) _ = _
    rw [parseArgsF]
    simp only [hslice1]
    rw [if_neg (by decide), if_pos (by trivial)]
  have h1 : findSpecial (nm ++ 40 :: (p ++ 41 :: rest)) = some (nm.length, 40) := by
    rw [findSpecial_append nm hnm]
    rw [findSpecial, if_pos (by simp)]
    simp
  show fromSliceF (2 + 1) _ = _
  rw [fromSliceF]
  simp only [h1]
  rw [if_pos trivial, List.take_left, drop_after_lparen]
  simp only [hargs]

/-- Parsing a rendered one-argument wrapper `nm(` + inner + `)rest` when the
inner text parses to `tt` leaving `)rest`. -/
theorem rt_wrap (nm : List Nat) (hnm : ∀ b ∈ nm, ¬(b = 40 ∨ b = 44 ∨ b = 41))
    (inner rest : List Nat) (tt : FunctionTree) (fuel : Nat)
    (hinner : fromSliceF fuel (inner ++ 41 :: rest) = some (.ok (tt, 41 :: rest))) :
    fromSliceF (fuel + 2) (nm ++ 40 :: (inner ++ 41 :: rest)) =
      some (.ok (.mk nm [tt], rest)) := by
  have h1 : findSpecial (nm ++ 40 :: (inner ++ 41 :: rest)) = some (nm.length, 40) := by
    rw [findSpecial_append nm hnm]
    rw [findSpecial, if_pos (by simp)]
    simp
  have hargs : parseArgsF (fuel + 1) (inner ++ 41 :: rest) = some (.ok ([tt], rest)) := by
    rw [parseArgsF]
    simp only [hinner]
    rw [if_neg (by decide), if_pos (by trivial)]
  show fromSliceF ((fuel + 1) + 1) _ = _
  rw [fromSliceF]
  simp only [h1]
  rw [if_pos trivial, List.take_left, drop_after_lparen]
  simp only [hargs]

/-- Every byte emitted for a `SimpleTree` is printable ASCII. -/
theorem fmt_printable (t : Descriptor (List Nat)) (ht : SimpleTree t) :
    ∀ b ∈ fmtD id t, 20 ≤ b ∧ b ≤ 127 := by
  induction ht with
  | key hp =>
    intro b hb
    rw [fmtD] at hb
    rcases List.mem_append.mp hb with hb' | hb'
    · rcases List.mem_append.mp hb' with hb'' | hb''
      · have hb3 : b ∈ ([112, 107, 40] : List Nat) := hb''
        simp at hb3
        omega
      · have := hp _ hb''
        exact ⟨this.1, this.2.1⟩
    · simp at hb'
      omega
  | keyHash hp =>
    intro b hb
    rw [fmtD] at hb
    rcases List.mem_append.mp hb with hb' | hb'
    · rcases List.mem_append.mp hb' with hb'' | hb''
      · have hb3 : b ∈ ([112, 107, 104, 40] : List Nat) := hb''
        simp at hb3
        omega
      · have := hp _ hb''
        exact ⟨this.1, this.2.1⟩
    · simp at hb'
      omega
  | wpkh hp =>
    intro b hb
    rw [fmtD] at hb
    rcases List.mem_append.mp hb with hb' | hb'
    · rcases List.mem_append.mp hb' with hb'' | hb''
      · have hb3 : b ∈ ([119, 112, 107, 104, 40] : List Nat) := hb''
        simp at hb3
        omega
      · have := hp _ hb''
        exact ⟨this.1, this.2.1⟩
    · simp at hb'
      omega
  | sh hd ih =>
    intro b hb
    rw [fmtD] at hb
    rcases List.mem_append.mp hb with hb' | hb'
    · rcases List.mem_append.mp hb' with hb'' | hb''
      · have hb3 : b ∈ ([115, 104, 40] : List Nat) := hb''
        simp at hb3
        omega
      · exact ih _ hb''
    · simp at hb'
      omega
  | wsh hd ih =>
    intro b hb
    rw [fmtD] at hb
    rcases List.mem_append.mp hb with hb' | hb'
    · rcases List.mem_append.mp hb' with hb'' | hb''
      · have hb3 : b ∈ ([119, 115, 104, 40] : List Nat) := hb''
        simp at hb3
        omega
      · exact ih _ hb''
    · simp at hb'
      omega

theorem firstUnprintable_none (s : List Nat) (h : ∀ b ∈ s, 20 ≤ b ∧ b ≤ 127) :
    firstUnprintable s = none := by
  induction s with
  | nil => rfl
  | cons c rest ih =>
    rw [firstUnprintable, if_neg (by have := h c (by simp); omega)]
    exact ih (fun b hb => h b (by simp [hb]))

/-- The serialize-then-parse core: for a `SimpleTree` the raw parser consumes
exactly the rendering (with fuel bounded by the wrapper's budget) and the
recovered raw tree interprets back to the original descriptor. -/
theorem rt_slice (t : Descriptor (List Nat)) (ht : SimpleTree t) :
    ∀ rest, ∃ fuel tt,
      fuel ≤ 2 * (fmtD id t).length + 1 ∧
      fromSliceF fuel (fmtD id t ++ rest) = some (.ok (tt, rest)) ∧
      fromTree idKey tt = .ok t := by
  induction ht with
  | @key p hp =>
    intro rest
    refine ⟨3, .mk (strBytes "pk") [.mk p []], ?_, ?_, ?_⟩
    · rw [fmtD]
      simp
      omega
    · have := rt_leaf (strBytes "pk") p (by decide)
        (fun b hb => by have := hp b hb; simp; omega) rest
      rw [fmtD]
      simpa using this
    · rfl
  | @keyHash p hp =>
    intro rest
    refine ⟨3, .mk (strBytes "pkh") [.mk p []], ?_, ?_, ?_⟩
    · rw [fmtD]
      simp
      omega
    · have := rt_leaf (strBytes "pkh") p (by decide)
        (fun b hb => by have := hp b hb; simp; omega) rest
      rw [fmtD]
      simpa using this
    · rfl
  | @wpkh p hp =>
    intro rest
    refine ⟨3, .mk (strBytes "wpkh") [.mk p []], ?_, ?_, ?_⟩
    · rw [fmtD]
      simp
      omega
    · have := rt_leaf (strBytes "wpkh") p (by decide)
        (fun b hb => by have := hp b hb; simp; omega) rest
      rw [fmtD]
      simpa using this
    · rfl
  | @sh d hd ih =>
    intro rest
    obtain ⟨fuel, tt, hb, hslice, htree⟩ := ih (41 :: rest)
    refine ⟨fuel + 2, .mk (strBytes "sh") [tt], ?_, ?_, ?_⟩
    · rw [fmtD]
      simp
      omega
    · have := rt_wrap (strBytes "sh") (by decide) (fmtD id d) rest tt fuel hslice
      rw [fmtD]
      simpa using this
    · rw [fromTree]
      unfold fromTreeStep
      rw [if_neg (fun hc => absurd hc.1 (by decide)),
        if_neg (fun hc => absurd hc.1 (by decide)), if_neg (by decide),
        if_neg (fun hc => absurd hc.1 (by decide)),
        if_neg (fun hc => absurd hc.1 (by decide)), if_neg (by decide),
        if_neg (fun hc => absurd hc.1 (by decide)),
        if_neg (fun hc => absurd hc.1 (by decide)),
        if_neg (fun hc => absurd hc.1 (by decide)),
        if_neg (fun hc => absurd hc.1 (by decide)), if_pos ⟨rfl, rfl⟩]
      rw [childResults, childResults]
      simp only []
      rw [htree]
      rfl
  | @wsh d hd ih =>
    intro rest
    obtain ⟨fuel, tt, hb, hslice, htree⟩ := ih (41 :: rest)
    refine ⟨fuel + 2, .mk (strBytes "wsh") [tt], ?_, ?_, ?_⟩
    · rw [fmtD]
      simp
      omega
    · have := rt_wrap (strBytes "wsh") (by decide) (fmtD id d) rest tt fuel hslice
      rw [fmtD]
      simpa using this
    · rw [fromTree]
      unfold fromTreeStep
      rw [if_neg (fun hc => absurd hc.1 (by decide)),
        if_neg (fun hc => absurd hc.1 (by decide)), if_neg (by decide),
        if_neg (fun hc => absurd hc.1 (by decide)),
        if_neg (fun hc => absurd hc.1 (by decide)), if_neg (by decide),
        if_neg (fun hc => absurd hc.1 (by decide)),
        if_neg (fun hc => absurd hc.1 (by decide)),
        if_neg (fun hc => absurd hc.1 (by decide)),
        if_neg (fun hc => absurd hc.1 (by decide)),
        if_neg (fun hc => absurd hc.1 (by decide)), if_pos ⟨rfl, rfl⟩]
      rw [childResults, childResults]
      simp only []
      rw [htree]
      rfl

/-! ## Claim theorems (easy concrete ones) -/

/-- Claim C1, counterexample: the input `multi(2,A,B)` declares threshold
`k = 2` over `n = 2` keys (`k == n`), yet parsing succeeds and returns that
`Multi`, because the rejection test compares `k` against `top.args.len()`,
which counts the threshold token itself. -/
theorem c1_counterexample :
    Descriptor.from_str idKey (strBytes "multi(2,A,B)") =
      .ok (.Multi 2 [strBytes "A", strBytes "B"]) ∧
    [strBytes "A", strBytes "B"].length ≤ 2 :=
  ⟨rfl, by decide⟩

/-- Claim C1, amended: the parser rejects `multi`/`thres` only when the
declared threshold `k` strictly exceeds the number of keys/sub-policies `n`
(the guard `thresh >= top.args.len()` counts the threshold token itself, so
it fires exactly for `k ≥ n + 1`); `k = n` is accepted. Consequently a parse
can return `Multi`/`Threshold` with `k = n` but never with `k > n`. -/
theorem c1_threshold_strict :
    (∀ {P : Type} (fp : List Nat → Except (List Nat) P) (s : List Nat)
        (k : Nat) (keys : List P),
      Descriptor.from_str fp s = .ok (.Multi k keys) → k ≤ keys.length) ∧
    (∀ {P : Type} (fp : List Nat → Except (List Nat) P) (s : List Nat)
        (k : Nat) (subs : List (Descriptor P)),
      Descriptor.from_str fp s = .ok (.Threshold k subs) → k ≤ subs.length) ∧
    (∀ {P : Type} (fp : List Nat → Except (List Nat) P)
        (a0 : FunctionTree) (rest : List FunctionTree) (k : Nat),
      (∀ arg ∈ a0 :: rest, arg.args = []) →
      parse_num a0.name = .ok k →
      rest.length < k →
      fromTree fp (.mk (strBytes "multi") (a0 :: rest)) =
        .err (errorize (strBytes "higher threshold than there were keys in multi"))) ∧
    (∀ {P : Type} (fp : List Nat → Except (List Nat) P)
        (a0 : FunctionTree) (rest : List FunctionTree) (k : Nat),
      a0.args = [] →
      parse_num a0.name = .ok k →
      rest.length < k →
      fromTree fp (.mk (strBytes "thres") (a0 :: rest)) = .err (errorize a0.name)) := by
  have fromOk : ∀ {P : Type} (fp : List Nat → Except (List Nat) P) (s : List Nat)
      (d : Descriptor P), Descriptor.from_str fp s = .ok d →
      ∃ top, fromTree fp top = .ok d := by
    intro P fp s d h
    rw [Descriptor.from_str] at h
    cases hfu : firstUnprintable s with
    | some b => rw [hfu] at h; simp at h
    | none =>
      rw [hfu] at h
      cases hfs : FunctionTree.from_slice s with
      | error e => rw [hfs] at h; simp at h
      | ok pr =>
        obtain ⟨top, rem⟩ := pr
        rw [hfs] at h
        by_cases hr : rem = []
        · subst hr
          simp at h
          exact ⟨top, h⟩
        · simp [hr] at h
  refine ⟨?_, ?_, ?_, ?_⟩
  · intro P fp s k keys h
    obtain ⟨top, htop⟩ := fromOk fp s _ h
    exact (fromTree_ok_inv fp top _ htop).1 k keys rfl
  · intro P fp s k subs h
    obtain ⟨top, htop⟩ := fromOk fp s _ h
    exact (fromTree_ok_inv fp top _ htop).2 k subs rfl
  · intro P fp a0 rest k hat hnum hlt
    show multiArm fp (a0 :: rest) = _
    have hfind : (a0 :: rest).find? (fun arg => !arg.args.isEmpty) = none := by
      rw [List.find?_eq_none]
      intro x hx
      simp [hat x hx]
    rw [multiArm, hfind]
    simp only [List.getElem?_cons_zero, hnum]
    rw [if_pos (by simp; omega)]
  · intro P fp a0 rest k ha0 hnum hlt
    rw [fromTree]
    unfold fromTreeStep
    rw [if_neg (fun hc => absurd hc.1 (by decide)),
      if_neg (fun hc => absurd hc.1 (by decide)), if_neg (by decide),
      if_neg (fun hc => absurd hc.1 (by decide)),
      if_neg (fun hc => absurd hc.1 (by decide)), if_pos rfl]
    simp only [ha0, List.isEmpty_nil, Bool.not_true, Bool.false_eq_true, if_false, hnum]
    rw [if_pos (by omega)]

/-- Claim C1, amended, witness: `multi(1,A,B)` parses to a `Multi` whose
count respects the bound, and `multi(3,A,B)` (and `thres(3,pk(A),pk(B))`)
with `k = 3 > n = 2` are rejected with the unexpected-token errors. -/
theorem c1_threshold_strict_witness :
    1 ≤ [strBytes "A", strBytes "B"].length ∧
    fromTree idKey (.mk (strBytes "multi")
        [.mk (strBytes "3") [], .mk (strBytes "A") [], .mk (strBytes "B") []]) =
      .err (errorize (strBytes "higher threshold than there were keys in multi")) ∧
    fromTree idKey (.mk (strBytes "thres")
        [.mk (strBytes "3") [], .mk (strBytes "pk") [.mk (strBytes "A") []]]) =
      .err (errorize (strBytes "3")) :=
  ⟨c1_threshold_strict.1 idKey (strBytes "multi(1,A,B)") 1
      [strBytes "A", strBytes "B"] rfl,
   c1_threshold_strict.2.2.1 idKey (.mk (strBytes "3") [])
      [.mk (strBytes "A") [], .mk (strBytes "B") []] 3
      (by
        intro arg harg
        simp only [List.mem_cons, List.not_mem_nil, or_false] at harg
        rcases harg with rfl | rfl | rfl <;> rfl)
      rfl (by decide),
   c1_threshold_strict.2.2.2 idKey (.mk (strBytes "3") [])
      [.mk (strBytes "pk") [.mk (strBytes "A") []]] 3 rfl rfl (by decide)⟩

/-- Claim C2: `from_str` is claimed total (never panics), but on
`time(5)` and `hash(00)` the `time`/`hash` arms of `from_tree` test
`args[0].args.is_empty()` and then index `args[0].args[0]` — an
out-of-bounds read of the just-checked-empty list, i.e. a Rust panic
(`crash` in this model). -/
theorem c2_from_str_crashes :
    Descriptor.from_str idKey (strBytes "time(5)") = .crash ∧
    Descriptor.from_str idKey (strBytes "hash(00)") = .crash :=
  ⟨rfl, rfl⟩

/-- Claim C9, counterexample: serializing `Multi(2, [key1, key2])` yields
`multi(2key1,key2,)` — the trailing comma is there, but there is no comma
after the count `2`, so the claimed example output `multi(2,key1,key2,)` is
not what the code produces. -/
theorem c9_counterexample :
    fmtD id (.Multi 2 [strBytes "key1", strBytes "key2"]) =
      strBytes "multi(2key1,key2,)" ∧
    fmtD id (.Multi 2 [strBytes "key1", strBytes "key2"]) ≠
      strBytes "multi(2,key1,key2,)" :=
  ⟨rfl, by decide⟩

/-- Claim C9, amended: for `Multi` and `Threshold` with at least one child
the serializer appends `,` after every child (equivalently: children joined
with `,` between them plus one trailing `,`), so a trailing comma sits
immediately before the closing parenthesis; the count itself is emitted with
no separator after it. -/
theorem c9_trailing_comma :
    (∀ {P : Type} (fmtP : P → List Nat) (k : Nat) (keys : List P),
      keys ≠ [] →
      fmtD fmtP (.Multi k keys) =
        strBytes "multi(" ++ natBytes k ++ sepBetween [44] (keys.map fmtP) ++ [44, 41]) ∧
    (∀ {P : Type} (fmtP : P → List Nat) (k : Nat) (subs : List (Descriptor P)),
      subs ≠ [] →
      fmtD fmtP (.Threshold k subs) =
        strBytes "multi(" ++ natBytes k ++
          sepBetween [44] (subs.map (fmtD fmtP)) ++ [44, 41]) := by
  constructor
  · intro P fmtP k keys h
    have hne : keys.map fmtP ≠ [] := by simp [h]
    rw [fmtD, show keys.map (fun p => fmtP p ++ [44]) = (keys.map fmtP).map (fun x => x ++ [44]) by
      simp [List.map_map], joinAfter_eq_sepBetween _ hne]
    simp
  · intro P fmtP k subs h
    have hne : subs.map (fmtD fmtP) ≠ [] := by simp [h]
    rw [fmtD, fmtDList_eq_join, show subs.map (fun d => fmtD fmtP d ++ [44]) =
      (subs.map (fmtD fmtP)).map (fun x => x ++ [44]) by simp [List.map_map],
      joinAfter_eq_sepBetween _ hne]
    simp

/-- Claim C9, amended, witness: `Multi(1, [k])` and `Threshold(1, [Time 7])`
instantiate the amended serializer shape. -/
theorem c9_trailing_comma_witness :
    fmtD id (.Multi 1 [strBytes "k"]) =
      strBytes "multi(" ++ natBytes 1 ++ sepBetween [44] [strBytes "k"] ++ [44, 41] ∧
    fmtD (P := List Nat) id (.Threshold 1 [.Time 7]) =
      strBytes "multi(" ++ natBytes 1 ++
        sepBetween [44] [fmtD id (.Time 7)] ++ [44, 41] :=
  ⟨by rw [c9_trailing_comma.1 id 1 [strBytes "k"] (by decide)]; simp,
   c9_trailing_comma.2 id 1 [.Time 7] (by simp)⟩

/-- Claim C3, counterexample: round-tripping fails for `And` even though no
trailing-separator quirk is involved: the serializer emits
`and(pk(a), pk(b))` with a space after the comma, the parser does not strip
it, and interpretation fails on the unknown name `" pk"` instead of
returning the original tree. -/
theorem c3_counterexample :
    Descriptor.from_str idKey
        (fmtD id (.And (.Key (strBytes "a")) (.Key (strBytes "b")))) =
      .err (errorize (strBytes " pk")) ∧
    DResult.err (errorize (strBytes " pk")) ≠
      .ok (.And (.Key (strBytes "a")) (.Key (strBytes "b"))) :=
  ⟨rfl, by simp⟩

/-- Claim C3, amended: `parse(serialize(t)) = Ok t` holds exactly on the
fragment built from `Key`, `KeyHash`, `Wpkh`, `Sh` and `Wsh` over
grammar-surviving keys (printable, no `(`/`,`/`)`, identity-encoded). The
other variants do not round-trip, for reasons beyond the flagged
trailing-separator quirk: the binary forms emit a `", "` the parser does not
strip, `Multi` emits no separator after its count, `Threshold` is serialized
under the name `multi`, and `hash`/`time` leaves crash the interpreter. -/
theorem c3_roundtrip_fragment (t : Descriptor (List Nat)) (ht : SimpleTree t) :
    Descriptor.from_str idKey (fmtD id t) = .ok t := by
  obtain ⟨fuel, tt, hb, hslice, htree⟩ := rt_slice t ht []
  rw [List.append_nil] at hslice
  have hprint := firstUnprintable_none _ (fmt_printable t ht)
  have hslice' := sliceF_mono_le fuel (2 * (fmtD id t).length + 1) hb _ _ hslice
  have hfs : FunctionTree.from_slice (fmtD id t) = .ok (tt, []) := by
    rw [FunctionTree.from_slice, hslice']
  rw [Descriptor.from_str]
  simp only [hprint, hfs]
  rw [if_neg (by simp)]
  exact htree

/-- Claim C3, amended, witness: `sh(wpkh(k))` round-trips. -/
theorem c3_roundtrip_fragment_witness :
    Descriptor.from_str idKey (fmtD id (.Sh (.Wpkh (strBytes "k")))) =
      .ok (.Sh (.Wpkh (strBytes "k"))) :=
  c3_roundtrip_fragment _ (SimpleTree.sh (SimpleTree.wpkh (by decide)))

/-- Claim C4: the degenerate special cases. A `multi` whose arguments are all
bare atoms but whose threshold token fails numeric parsing yields
`Multi(2, [dummy, dummy, dummy])` with the three dummies parsed from the
empty string; `hash()` yields `Hash` of the sha256d digest of 32 zero bytes;
`time()` yields `Time(0x10000000)`. -/
theorem c4_degenerate :
    (∀ {P : Type} (fp : List Nat → Except (List Nat) P)
        (a0 : FunctionTree) (rest : List FunctionTree) (d : P),
      (∀ arg ∈ a0 :: rest, arg.args = []) →
      u32FromStr a0.name = none →
      fp [] = .ok d →
      fromTree fp (.mk (strBytes "multi") (a0 :: rest)) = .ok (.Multi 2 [d, d, d])) ∧
    (∀ {P : Type} (fp : List Nat → Except (List Nat) P),
      Descriptor.from_str fp (strBytes "hash()") =
        .ok (.Hash (.fromData (List.replicate 32 0)))) ∧
    (∀ {P : Type} (fp : List Nat → Except (List Nat) P),
      Descriptor.from_str fp (strBytes "time()") = .ok (.Time 0x10000000)) := by
  refine ⟨?_, fun {P} fp => rfl, fun {P} fp => rfl⟩
  intro P fp a0 rest d hat hnum hfp
  have hfind : (a0 :: rest).find? (fun arg => !arg.args.isEmpty) = none := by
    rw [List.find?_eq_none]
    intro x hx
    simp [hat x hx]
  show multiArm fp (a0 :: rest) = .ok (.Multi 2 [d, d, d])
  rw [multiArm, hfind]
  simp only [List.getElem?_cons_zero, parse_num, hnum, hfp]

/-- Claim C4, witness: `multi(x,A,B)` (threshold token `x` is not a number)
with the identity key parser produces `Multi(2, ["", "", ""])`. -/
theorem c4_degenerate_witness :
    fromTree idKey (.mk (strBytes "multi")
        [.mk (strBytes "x") [], .mk (strBytes "A") [], .mk (strBytes "B") []]) =
      .ok (.Multi 2 [[], [], []]) :=
  c4_degenerate.1 idKey _ _ []
    (by
      intro arg h
      simp only [List.mem_cons, List.not_mem_nil, or_false] at h
      rcases h with rfl | rfl | rfl <;> rfl)
    (by decide) rfl

/-- Claim C8: after the printable-byte check, if the top-level expression
parses but leaves a non-empty remainder, `from_str` fails with
`Unexpected(remainder)`; conversely a successful `from_str` implies the raw
parse consumed the whole input. -/
theorem c8_no_trailing_garbage :
    (∀ {P : Type} (fp : List Nat → Except (List Nat) P)
        (s : List Nat) (top : FunctionTree) (rem : List Nat),
      firstUnprintable s = none →
      FunctionTree.from_slice s = .ok (top, rem) →
      rem ≠ [] →
      Descriptor.from_str fp s = .err (errorize rem)) ∧
    (∀ {P : Type} (fp : List Nat → Except (List Nat) P)
        (s : List Nat) (d : Descriptor P),
      Descriptor.from_str fp s = .ok d →
      ∃ top, FunctionTree.from_slice s = .ok (top, [])) := by
  constructor
  · intro P fp s top rem h1 h2 h3
    rw [Descriptor.from_str, h1, h2]
    simp [h3]
  · intro P fp s d h
    rw [Descriptor.from_str] at h
    cases hfu : firstUnprintable s with
    | some b => rw [hfu] at h; simp at h
    | none =>
      rw [hfu] at h
      cases hfs : FunctionTree.from_slice s with
      | error e => rw [hfs] at h; simp at h
      | ok pr =>
        obtain ⟨top, rem⟩ := pr
        rw [hfs] at h
        by_cases hr : rem = []
        · subst hr
          exact ⟨top, rfl⟩
        · simp [hr] at h

/-- Claim C8, witness: `pk(a))` parses `pk(a)` and leaves `)`, so `from_str`
reports `Unexpected(")")`. -/
theorem c8_witness :
    Descriptor.from_str idKey (strBytes "pk(a))") = .err (errorize (strBytes ")")) :=
  c8_no_trailing_garbage.1 idKey (strBytes "pk(a))")
    (.mk (strBytes "pk") [.mk (strBytes "a") []]) (strBytes ")") rfl rfl (by decide)

/-- Claim C5: `from_str` fails with `Unprintable(b)` exactly when the input
contains a byte outside `20..=127`, with `b` the first such byte; the check
runs before any grammar parsing, so no other error is reported for such
inputs (the raw parser produces only `ExpectedChar` and `from_tree` only
`Unexpected` errors). -/
theorem c5_unprintable_iff {P : Type} (fp : List Nat → Except (List Nat) P)
    (s : List Nat) (b : Nat) :
    Descriptor.from_str fp s = .err (.unprintable b) ↔
      ∃ pre post, s = pre ++ b :: post ∧ (∀ c ∈ pre, 20 ≤ c ∧ c ≤ 127) ∧
        (b < 20 ∨ 127 < b) := by
  rw [← firstUnprintable_some_iff]
  rw [Descriptor.from_str]
  cases hfu : firstUnprintable s with
  | some b' =>
    simp only []
    constructor
    · intro h
      injection h with h'
      injection h' with h''
      rw [h'']
    · intro h
      injection h with h'
      rw [h']
  | none =>
    simp only []
    constructor
    · intro h
      exfalso
      cases hfs : FunctionTree.from_slice s with
      | error e =>
        rw [hfs] at h
        simp only [] at h
        injection h with h'
        subst h'
        rcases from_slice_err s _ hfs with he | he <;> cases he
      | ok pr =>
        obtain ⟨top, rem⟩ := pr
        rw [hfs] at h
        simp only [] at h
        by_cases hr : rem = []
        · rw [if_neg (by simp [hr])] at h
          obtain ⟨tok, htok⟩ := fromTree_err_unexpected fp top _ h
          cases htok
        · rw [if_pos hr] at h
          injection h with h'
          cases h'
    · intro h
      cases h

/-- Claim C5, witness: the single-byte input `0x0B` (vertical tab, below 32
and below 20) fails with `Unprintable(11)`. -/
theorem c5_unprintable_witness :
    Descriptor.from_str idKey [11] = .err (.unprintable 11) :=
  (c5_unprintable_iff idKey [11] 11).mpr ⟨[], [], rfl, by simp, by decide⟩

/-- Claim C6: if the mapping function succeeds on every key of the tree,
`instantiate` returns the structure-preserving image: every key leaf replaced
by the mapping function's output, every non-key datum (counts, digests, time
values, variant tags, child order) reproduced unchanged — which is exactly
`mapKeys`. -/
theorem c6_instantiate_mapkeys {P Q E : Type} (f : P → Except E Q) (g : P → Q)
    (t : Descriptor P) (h : ∀ p ∈ keysOf t, f p = .ok (g p)) :
    instantiate f t = .ok (mapKeys g t) := by
  induction t using descriptorInduction with
  | hKey p => rw [instantiate, h p (by simp [keysOf]), mapKeys]; rfl
  | hKeyHash p => rw [instantiate, h p (by simp [keysOf]), mapKeys]; rfl
  | hMulti k keys =>
    rw [instantiate,
      instKeys_ok f g keys (fun p hp => h p (by simpa [keysOf] using hp)), mapKeys]
  | hHash hsh => rw [instantiate, mapKeys]
  | hTime n => rw [instantiate, mapKeys]
  | hThreshold k subs ih =>
    rw [instantiate, instantiateList_ok_of f g subs
      (fun d hd => ih d hd
        (fun p hp => h p (by simpa [keysOf] using mem_keysOfList hd hp))), mapKeys]
  | hAnd l r ihl ihr =>
    rw [instantiate, ihl (fun p hp => h p (by simp [keysOf, hp])),
      ihr (fun p hp => h p (by simp [keysOf, hp])), mapKeys]
  | hOr l r ihl ihr =>
    rw [instantiate, ihl (fun p hp => h p (by simp [keysOf, hp])),
      ihr (fun p hp => h p (by simp [keysOf, hp])), mapKeys]
  | hAOr l r ihl ihr =>
    rw [instantiate, ihl (fun p hp => h p (by simp [keysOf, hp])),
      ihr (fun p hp => h p (by simp [keysOf, hp])), mapKeys]
  | hWpkh p => rw [instantiate, h p (by simp [keysOf]), mapKeys]; rfl
  | hSh d ih =>
    rw [instantiate, ih (fun p hp => h p (by simpa [keysOf] using hp)), mapKeys]
    rfl
  | hWsh d ih =>
    rw [instantiate, ih (fun p hp => h p (by simpa [keysOf] using hp)), mapKeys]
    rfl

/-- Claim C6, witness: incrementing every key of
`Threshold(1, [Key 3, And(Key 4, Time 7)])` yields the same tree with the
keys incremented and the counts and time value unchanged. -/
theorem c6_instantiate_mapkeys_witness :
    instantiate (fun n : Nat => (Except.ok (n + 1) : Except Unit Nat))
      (.Threshold 1 [.Key 3, .And (.Key 4) (.Time 7)]) =
      .ok (mapKeys (fun n => n + 1) (.Threshold 1 [.Key 3, .And (.Key 4) (.Time 7)])) :=
  c6_instantiate_mapkeys (fun n : Nat => (Except.ok (n + 1) : Except Unit Nat))
    (fun n => n + 1) (.Threshold 1 [.Key 3, .And (.Key 4) (.Time 7)])
    (fun _ _ => rfl)

/-- Claim C7: if the mapping function fails on some key, `instantiate`
returns `Err(e)` where `e` is the error of the first failing key in
left-to-right depth-first order (all keys before it mapping successfully),
propagated unchanged — no partial tree is returned. -/
theorem c7_instantiate_first_error {P Q E : Type} (f : P → Except E Q)
    (t : Descriptor P) (pre : List P) (p : P) (post : List P) (e : E)
    (hsplit : keysOf t = pre ++ p :: post)
    (hpre : ∀ q ∈ pre, ∃ r, f q = .ok r)
    (hp : f p = .error e) :
    instantiate f t = .error e := by
  apply instantiate_err
  have h1 : scanKeys f pre = none := (scanKeys_none_iff f pre).mpr hpre
  rw [hsplit, scanKeys_append, h1, scanKeys, hp]

/-- Claim C7, witness: with a mapping failing exactly on key `4` with error
`9`, instantiating `Threshold(1, [Key 3, And(Key 4, Time 7)])` (keys in DFS
order: `[3, 4]`) propagates `Err 9`. -/
theorem c7_instantiate_first_error_witness :
    instantiate (fun n : Nat => (if n = 4 then .error 9 else .ok n : Except Nat Nat))
      (.Threshold 1 [.Key 3, .And (.Key 4) (.Time 7)]) = .error 9 :=
  c7_instantiate_first_error
    (fun n : Nat => (if n = 4 then .error 9 else .ok n : Except Nat Nat))
    (.Threshold 1 [.Key 3, .And (.Key 4) (.Time 7)]) [3] 4 [] 9 rfl
    (by
      intro q hq
      simp only [List.mem_singleton] at hq
      subst hq
      exact ⟨3, rfl⟩)
    rfl

/-- Claim C10 (compiler modelled from the spec): compiling
`And(Time(10000), Multi(2, [k5, k6, k7]))` emits the Multi sub-program first,
with its final check in verify form (`CHECKMULTISIGVERIFY`), and the Time
sub-program (ending in `CSV`) last, although Time is the left operand of the
`And`. -/
theorem c10_compile_reorder {P : Type} (k5 k6 k7 : P) :
    compile (.And (.Time 10000) (.Multi 2 [k5, k6, k7])) =
      [.pushNum 2, .pushKey k5, .pushKey k6, .pushKey k7, .pushNum 3,
       .checkmultisigverify, .pushInt 10000, .csv] := rfl
